import Mathlib

/-!
# Sparse file index of sequins (`index/sparse_file_index.go`)

A shallow embedding of `sparseFileIndex`: `newSparseFileIndex`, `build`, `load`, `get`,
`cleanup` and `manifestEntry`, over a model of the sorted record file and of the record
scanner the index drives.

Conventions of the embedding.

* A byte string (`[]byte`) is a list of byte values; a `nil` slice that the code tests with
  `== nil` (`minKey`, `maxKey`) is an `Option`, and `bytes.Compare` reads `nil` as the empty
  string.
* File positions and offsets (`int64`) are natural numbers; `closest` in `get` is an `Int`,
  because the code decrements it.
* The loops of `build`, `get` and `sort.Search` take a fuel argument; an exhausted fuel is the
  result `none` (or `GetResult.outOfFuel`). `build_spec` shows that `build` returns within its
  fuel on every well-formed file, and the theorems on `get` give its result.
* The source file and the index path are readable and writable: `os.Open`, `Seek`,
  `cdb.Create`, `cdb.Open` and `Close` succeed. `cdb.Create` creates the file at the index
  path, and the persisted table is the list of the pairs put into it; the fixed 8-byte
  encoding of an offset (`serializeIndexEntry`, `deserializeIndexEntry`) round-trips and is
  left out. Paths are left out: the index carries the contents of its two files.
* The record scanner (package `sequencefile`) is modelled from its contract: records lie back
  to back behind the header, a scan at the start of a record yields it, and a scan at any other
  position before the end of the file does not decode.
-/

namespace Sequins

/-! ## Byte strings -/

/-- A byte string: the bytes of a Go `[]byte`, each a value below 256. -/
abbrev Bytes := List Nat

/-- Go `bytes.Compare`: lexicographic comparison by unsigned byte value, with result
`-1`, `0` or `+1`. -/
def bytesCompare : Bytes → Bytes → Int
  | [], [] => 0
  | [], _ :: _ => -1
  | _ :: _, [] => 1
  | a :: as, b :: bs =>
    if a < b then -1 else if b < a then 1 else bytesCompare as bs

/-- The bytes of a possibly `nil` slice: `bytes.Compare` treats `nil` as the empty string. -/
def bytesOf (b : Option Bytes) : Bytes := b.getD []

/-! ## The source file and the record scanner -/

/-- One record of the source file: its key and value, the number of bytes it occupies in the
file (framing included), and whether a block-synchronization boundary lies at its start. -/
structure Record where
  key : Bytes
  value : Bytes
  size : Nat
  sync : Bool
deriving DecidableEq, Repr

/-- A source file: a header of `headerLen` bytes followed by the records, back to back. -/
structure SeqFile where
  headerLen : Nat
  records : List Record
deriving DecidableEq, Repr

/-- Every record occupies at least one byte. -/
def SeqFile.WellFormed (f : SeqFile) : Prop := ∀ r ∈ f.records, 0 < r.size

instance (f : SeqFile) : Decidable f.WellFormed := by
  unfold SeqFile.WellFormed; infer_instance

/-- The byte offset at which record number `i` starts (the end of the file for
`i = records.length`). -/
def offsetFrom (start : Nat) : List Record → Nat → Nat
  | [], _ => start
  | _ :: _, 0 => start
  | r :: rs, i + 1 => offsetFrom (start + r.size) rs i

/-- Offset of record number `i` of the file. -/
def SeqFile.offset (f : SeqFile) (i : Nat) : Nat := offsetFrom f.headerLen f.records i

/-- Errors that `build`, `load` and `get` return. -/
inductive Error
  | errNotSorted
  | eof
  | decodeFailure
deriving DecidableEq, Repr

/-- Outcome of one `Scan`/`ScanKey` of the scanner. -/
inductive ScanResult
  | record (r : Record) (next : Nat)
  | eof
  | failure
deriving DecidableEq, Repr

/-- Scanner over the records that start at `start`, opened at position `pos`. -/
def scanFrom : List Record → Nat → Nat → ScanResult
  | [], start, pos => if start ≤ pos then .eof else .failure
  | r :: rs, start, pos =>
    if pos = start then .record r (start + r.size)
    else if pos < start + r.size then .failure
    else scanFrom rs (start + r.size) pos

/-- Modelled from the spec: `sequencefile.Reader.Scan` and `ScanKey` (the package is not among
the sources at hand). With the file handle at `pos`, the scanner advances past the next record
and makes it retrievable (`record r next`, the handle then at `next`), or returns false at the
end of the file (`eof`); a position that is not the start of a record (inside the header or
inside a record) does not decode, and the error is exposed through `Err()` (`failure`). -/
def SeqFile.scan (f : SeqFile) (pos : Nat) : ScanResult := scanFrom f.records f.headerLen pos

/-- The first synchronization boundary at or after `pos`, among the records from `start`. -/
def syncFrom : List Record → Nat → Nat → Option Nat
  | [], _, _ => none
  | r :: rs, start, pos =>
    if r.sync && decide (pos ≤ start) then some start else syncFrom rs (start + r.size) pos

/-- Modelled from the spec: `sequencefile.Reader.Sync` (the package is not among the sources
at hand). After a raw seek to `pos`, advance to the next block-synchronization boundary, so
that the next scan returns a whole record; `none` is `io.EOF`, no boundary before the end of
the file. -/
def SeqFile.sync (f : SeqFile) (pos : Nat) : Option Nat := syncFrom f.records f.headerLen pos

/-! ## The index -/

/-- Const `skipSize` of the source. -/
def skipSize : Nat := 100000

/-- Go `sparseIndexEntry`. The zero value has a `nil` key, here the empty string: the code
only reads entry keys through `bytes.Compare`. -/
structure sparseIndexEntry where
  key : Bytes
  offset : Nat
deriving DecidableEq, Repr

/-- The part of a manifest entry the index reads and writes (`IndexProperties.MinKey` and
`MaxKey`). -/
structure manifestEntry where
  MinKey : Option Bytes
  MaxKey : Option Bytes
deriving DecidableEq, Repr

/-- Go `sparseFileIndex`, together with the part of the environment it acts on: the contents
of the file at `path` (`source`), the position of the `sourceFile` handle (`pos`), the error
of the reader (`readerErr`), and the persisted table at `indexPath` (`indexFile`, `none` when
no file exists there). -/
structure sparseFileIndex where
  skip : Bool
  table : List sparseIndexEntry
  maxKey : Option Bytes
  minKey : Option Bytes
  source : SeqFile
  pos : Nat
  readerErr : Option Error
  indexFile : Option (List (Bytes × Nat))
deriving DecidableEq, Repr

/-- Length of the slice that `newSparseFileIndex` makes: `1024*1024`. -/
def initialTableLen : Nat := 1024 * 1024

/-- Go `newSparseFileIndex`, for the source file `source` and an index path at which
`indexFile` is stored. `make([]sparseIndexEntry, 1024*1024)` is a slice of LENGTH
`1024*1024`, filled with zero entries. -/
def newSparseFileIndex (source : SeqFile) (indexFile : Option (List (Bytes × Nat))) :
    sparseFileIndex :=
  { skip := true
    table := List.replicate initialTableLen ⟨[], 0⟩
    maxKey := none
    minKey := none
    source := source
    pos := 0
    readerErr := none
    indexFile := indexFile }

/-- Go `sparseFileIndex.open`: open the file and read the header. -/
def sparseFileIndex.open (sfi : sparseFileIndex) : sparseFileIndex :=
  { sfi with pos := sfi.source.headerLen, readerErr := none }

/-- Go `sort.Search` loop: binary search between `i` and `j`. -/
def searchLoop (f : Nat → Bool) : Nat → Nat → Nat → Nat
  | 0, i, _ => i
  | fuel + 1, i, j =>
    if i < j then
      let h := (i + j) / 2
      if !f h then searchLoop f fuel (h + 1) j else searchLoop f fuel i h
    else i

/-- Go `sort.Search n f`. -/
def sortSearch (n : Nat) (f : Nat → Bool) : Nat := searchLoop f n 0 n

/-- Key of `table[i]` (read only at indices inside the table). -/
def keyAt (table : List sparseIndexEntry) (i : Nat) : Bytes := (table.getD i ⟨[], 0⟩).key

/-- The index `closest` of `get`, after the binary search and the back-up-by-one step. -/
def sparseFileIndex.closest (sfi : sparseFileIndex) (key : Bytes) : Int :=
  let closest := sortSearch sfi.table.length (fun i => decide (bytesCompare (keyAt sfi.table i) key ≥ 0))
  if closest = sfi.table.length ∨ bytesCompare (keyAt sfi.table closest) key > 0 then
    (closest : Int) - 1
  else closest

/-- What a call of `get` does. -/
inductive GetResult
  | ret (value : Option Bytes) (err : Option Error)
  | indexOutOfRange
  | outOfFuel
deriving DecidableEq, Repr

/-- The scan loop of `get`, from position `pos`. -/
def getScan (source : SeqFile) (key : Bytes) : Nat → Nat → GetResult
  | 0, _ => .outOfFuel
  | fuel + 1, pos =>
    match source.scan pos with
    | .record r next =>
      let compare := bytesCompare r.key key
      if compare = 0 then .ret (some r.value) none
      else if compare > 0 then .ret none none
      else getScan source key fuel next
    | .eof => .ret none none
    | .failure => .ret none (some .decodeFailure)

/-- Go `sparseFileIndex.get`. -/
def sparseFileIndex.get (sfi : sparseFileIndex) (key : Bytes) : GetResult :=
  if bytesCompare key (bytesOf sfi.minKey) < 0 ∨ bytesCompare key (bytesOf sfi.maxKey) > 0 then
    .ret none none
  else
    let closest := sfi.closest key
    if 0 ≤ closest ∧ closest < sfi.table.length then
      let startOffset := (sfi.table.getD closest.toNat ⟨[], 0⟩).offset
      getScan sfi.source key (sfi.source.records.length + 1) startOffset
    else .indexOutOfRange

/-- Go `sparseFileIndex.load`; `iter` is the sequence of pairs that the iterator of the
persisted table yields. -/
def sparseFileIndex.load (sfi : sparseFileIndex) (m : manifestEntry) (iter : List (Bytes × Nat)) :
    sparseFileIndex × Option Error :=
  let sfi := { sfi with minKey := m.MinKey, maxKey := m.MaxKey }
  let sfi := sfi.open
  ({ sfi with table := sfi.table ++ iter.map (fun kv => ⟨kv.1, kv.2⟩) }, none)

/-- Go `sparseFileIndex.skipAndSync`: the new position, or `none` for `io.EOF`. -/
def sparseFileIndex.skipAndSync (sfi : sparseFileIndex) : Option Nat :=
  sfi.source.sync (sfi.pos + skipSize)

/-- How one pass through the body of the loop of `build` ends. -/
inductive BuildStep
  | next (sfi : sparseFileIndex)
  | brk (sfi : sparseFileIndex)
  | ret (sfi : sparseFileIndex) (err : Option Error)
deriving DecidableEq, Repr

/-- The body of `if include` in `build`: append `key -> offset` to the table and put it into
the persisted table. -/
def sparseFileIndex.addEntry (sfi : sparseFileIndex) (offset : Nat) (key : Bytes) :
    sparseFileIndex :=
  { sfi with
    table := sfi.table ++ [⟨key, offset⟩]
    indexFile := sfi.indexFile.map (fun kvs => kvs ++ [(key, offset)]) }

/-- The skip phase that ends the loop body of `build`, after the record at `offset` was read.
On `io.EOF` from `skipAndSync` it turns skipping off, seeks back to the checkpoint and scans
the record there once more. -/
def sparseFileIndex.skipPhase (sfi : sparseFileIndex) (offset : Nat) : sparseFileIndex :=
  if sfi.skip && decide (offset > skipSize) then
    let checkpoint := offset
    match sfi.skipAndSync with
    | none =>
      let sfi := { sfi with skip := false, pos := checkpoint }
      match sfi.source.scan sfi.pos with
      | .record _ next => { sfi with pos := next }
      | .eof => sfi
      | .failure => { sfi with readerErr := some .decodeFailure }
    | some pos => { sfi with pos := pos }
  else sfi

/-- The index as one pass through the loop body leaves it. -/
def BuildStep.sfi : BuildStep → sparseFileIndex
  | .next sfi => sfi
  | .brk sfi => sfi
  | .ret sfi _ => sfi

/-- Second half of the loop body of `build`: add the entry if `incl`, then the skip phase. -/
def buildTail (sfi : sparseFileIndex) (incl : Bool) (offset : Nat) (key : Bytes) : BuildStep :=
  let sfi := if incl then sfi.addEntry offset key else sfi
  .next (sfi.skipPhase offset)

/-- The loop body of `build`. -/
def buildBody (sfi : sparseFileIndex) : BuildStep :=
  let offset := sfi.pos
  match sfi.source.scan sfi.pos with
  | .eof => .brk sfi
  | .failure => .brk { sfi with readerErr := some .decodeFailure }
  | .record r next =>
    let key := r.key
    let sfi := { sfi with pos := next }
    let sfi := if sfi.minKey = none then { sfi with minKey := some key } else sfi
    match sfi.maxKey with
    | none => buildTail { sfi with maxKey := some key } true offset key
    | some maxKey =>
      let compare := bytesCompare key maxKey
      if compare < 0 then .ret sfi (some .errNotSorted)
      else if compare = 0 then buildTail sfi false offset key
      else buildTail { sfi with maxKey := some key } true offset key

/-- The loop of `build`; `none` when the fuel runs out. -/
def buildLoop : Nat → sparseFileIndex → Option (sparseFileIndex × Option Error)
  | 0, _ => none
  | fuel + 1, sfi =>
    match buildBody sfi with
    | .next sfi => buildLoop fuel sfi
    | .brk sfi => some (sfi, sfi.readerErr)
    | .ret sfi err => some (sfi, err)

/-- Go `sparseFileIndex.build`: the index afterwards and the error returned. `cdb.Create`
creates (or truncates) the file at `indexPath`. -/
def sparseFileIndex.build (sfi : sparseFileIndex) : Option (sparseFileIndex × Option Error) :=
  let sfi := sfi.open
  let sfi := { sfi with indexFile := some [] }
  buildLoop (sfi.source.records.length + 1) sfi

/-- The offsets at which the loop of `build` reads a record: the position of the file handle
at the head of every pass through the loop body in which `ScanKey` returns true. -/
def readLoop : Nat → sparseFileIndex → List Nat
  | 0, _ => []
  | fuel + 1, sfi =>
    match buildBody sfi with
    | .next s => sfi.pos :: readLoop fuel s
    | .brk _ => []
    | .ret _ _ => [sfi.pos]

/-- The offsets of the records that `build` reads, in the order in which it reads them. -/
def sparseFileIndex.readOffsets (sfi : sparseFileIndex) : List Nat :=
  let sfi := sfi.open
  let sfi := { sfi with indexFile := some [] }
  readLoop (sfi.source.records.length + 1) sfi

/-- Go `sparseFileIndex.cleanup`: remove the file at `indexPath`. -/
def sparseFileIndex.cleanup (sfi : sparseFileIndex) : sparseFileIndex :=
  { sfi with indexFile := none }

/-- Go `sparseFileIndex.manifestEntry` (the bounds it exports). -/
def sparseFileIndex.manifestEntry (sfi : sparseFileIndex) : manifestEntry :=
  { MinKey := sfi.minKey, MaxKey := sfi.maxKey }

/-! ## Notions used in the statements -/

/-- The zero entries that `newSparseFileIndex` puts into the table. -/
def zeroTable : List sparseIndexEntry := List.replicate initialTableLen ⟨[], 0⟩

/-- Record number `j` of the file (a record of empty key beyond the end). -/
def SeqFile.recAt (f : SeqFile) (j : Nat) : Record := f.records.getD j ⟨[], [], 0, false⟩

/-- The records are sorted by key, in the order of `bytes.Compare`; equal keys may repeat. -/
def SeqFile.Sorted (f : SeqFile) : Prop :=
  f.records.Pairwise (fun a b => bytesCompare a.key b.key ≤ 0)

/-- The records are sorted by key and no two records share a key. -/
def SeqFile.StrictSorted (f : SeqFile) : Prop :=
  f.records.Pairwise (fun a b => bytesCompare a.key b.key < 0)

/-- A table is sorted ascending by key. -/
def TableSorted (table : List sparseIndexEntry) : Prop :=
  table.Pairwise (fun a b => bytesCompare a.key b.key ≤ 0)

/-- A table is strictly increasing in key and in offset. -/
def TableStrict (table : List sparseIndexEntry) : Prop :=
  table.Pairwise (fun a b => bytesCompare a.key b.key < 0 ∧ a.offset < b.offset)

/-- What holds of the index while `build` runs, once record number `l` is the latest record
the loop has read: the bounds, the table behind its zero entries (`real`), the persisted
table, and what the loop has checked in the part of the file it read record by record. -/
structure Visited (f : SeqFile) (s : sparseFileIndex) (real : List sparseIndexEntry)
    (l : Nat) : Prop where
  source : s.source = f
  noErr : s.readerErr = none
  table : s.table = zeroTable ++ real
  indexFile : s.indexFile = some (real.map fun e => (e.key, e.offset))
  lt : l < f.records.length
  minKey : s.minKey = some (f.recAt 0).key
  head : real.head? = some ⟨(f.recAt 0).key, f.offset 0⟩
  maxKey : s.maxKey = some (f.recAt l).key
  entries : ∀ e ∈ real, ∃ j, j ≤ l ∧ e = ⟨(f.recAt j).key, f.offset j⟩
  bounded : ∀ e ∈ real, bytesCompare e.key (f.recAt l).key ≤ 0
  sortedKeys : real.Pairwise (fun a b => bytesCompare a.key b.key < 0)
  sortedOffsets : real.Pairwise (fun a b => a.offset < b.offset)
  dense : ∀ j, j + 1 ≤ l → f.offset j ≤ skipSize →
    bytesCompare (f.recAt j).key (f.recAt (j + 1)).key < 0 →
    (⟨(f.recAt (j + 1)).key, f.offset (j + 1)⟩ : sparseIndexEntry) ∈ real
  denseSorted : ∀ a b, a < b → b ≤ l → f.offset (b - 1) ≤ skipSize →
    bytesCompare (f.recAt a).key (f.recAt b).key ≤ 0

/-- Invariant at the head of the loop of `build`, with the file handle at the start of record
number `i`: nothing read yet, or record `l` read last and `i` reached by reading on or by a
jump of `skipAndSync`. -/
inductive LoopInv (f : SeqFile) (s : sparseFileIndex) (i : Nat) : Prop
  | fresh (hi : i = 0) (source : s.source = f) (noErr : s.readerErr = none)
      (pos : s.pos = f.offset 0) (minKey : s.minKey = none) (maxKey : s.maxKey = none)
      (table : s.table = zeroTable) (indexFile : s.indexFile = some [])
  | running (real : List sparseIndexEntry) (l : Nat) (v : Visited f s real l) (hl : l < i)
      (pos : s.pos = f.offset i)
      (step : i = l + 1 ∨ (i < f.records.length ∧ skipSize < f.offset l))

/-- What a successful `build` leaves behind: `real` is the table without the zero entries
that `newSparseFileIndex` made. -/
structure Built (f : SeqFile) (s : sparseFileIndex) (real : List sparseIndexEntry) : Prop where
  source : s.source = f
  table : s.table = zeroTable ++ real
  indexFile : s.indexFile = some (real.map fun e => (e.key, e.offset))
  entries : ∀ e ∈ real, ∃ j, j < f.records.length ∧ e = ⟨(f.recAt j).key, f.offset j⟩
  sortedKeys : real.Pairwise (fun a b => bytesCompare a.key b.key < 0)
  sortedOffsets : real.Pairwise (fun a b => a.offset < b.offset)
  empty : f.records.length = 0 → s.minKey = none ∧ s.maxKey = none ∧ real = []
  minKey : 0 < f.records.length → s.minKey = some (f.recAt 0).key
  head : 0 < f.records.length → real.head? = some ⟨(f.recAt 0).key, f.offset 0⟩
  maxKey : 0 < f.records.length → s.maxKey = some (f.recAt (f.records.length - 1)).key
  dense : ∀ j, j + 1 < f.records.length → f.offset j ≤ skipSize →
    bytesCompare (f.recAt j).key (f.recAt (j + 1)).key < 0 →
    (⟨(f.recAt (j + 1)).key, f.offset (j + 1)⟩ : sparseIndexEntry) ∈ real
  denseSorted : ∀ a b, a < b → b < f.records.length → f.offset (b - 1) ≤ skipSize →
    bytesCompare (f.recAt a).key (f.recAt b).key ≤ 0

instance (f : SeqFile) : Decidable f.Sorted := by
  unfold SeqFile.Sorted; infer_instance

instance (f : SeqFile) : Decidable f.StrictSorted := by
  unfold SeqFile.StrictSorted; infer_instance

/-! ## Example files and the indexes `build` makes of them -/

/-- Keys `a b c d e` with values `1 2 3 4 5`, ten bytes a record, behind a header of 100
bytes. -/
def fileBasic : SeqFile :=
  ⟨100, [⟨[97], [49], 10, false⟩, ⟨[98], [50], 10, false⟩, ⟨[99], [51], 10, false⟩,
    ⟨[100], [52], 10, false⟩, ⟨[101], [53], 10, false⟩]⟩

/-- A header and no records. -/
def fileEmpty : SeqFile := ⟨100, []⟩

/-- The index that `build` makes of `fileEmpty`. -/
def builtEmpty : sparseFileIndex :=
  { skip := true, table := zeroTable, maxKey := none, minKey := none, source := fileEmpty,
    pos := 100, readerErr := none, indexFile := some [] }

/-- One record, key `a`. -/
def fileOne : SeqFile := ⟨100, [⟨[97], [49], 10, false⟩]⟩

/-- Two records; the first has the empty key. -/
def fileEmptyKey : SeqFile := ⟨100, [⟨[], [49], 10, false⟩, ⟨[98], [50], 10, false⟩]⟩

/-- Keys `b c` with values `1 2`. -/
def fileTwo : SeqFile := ⟨100, [⟨[98], [49], 10, false⟩, ⟨[99], [50], 10, false⟩]⟩

/-- The index that `build` makes of `fileTwo`. -/
def builtTwo : sparseFileIndex :=
  { skip := true, table := zeroTable ++ [⟨[98], 100⟩] ++ [⟨[99], 110⟩], maxKey := some [99],
    minKey := some [98], source := fileTwo, pos := 120, readerErr := none,
    indexFile := some [([98], 100), ([99], 110)] }

/-- Keys `a c b`: not sorted. -/
def fileUnsorted : SeqFile :=
  ⟨100, [⟨[97], [49], 10, false⟩, ⟨[99], [50], 10, false⟩, ⟨[98], [51], 10, false⟩]⟩

/-- The index as `build` leaves it when it returns `errNotSorted` on `fileUnsorted`. -/
def failedUnsorted : sparseFileIndex :=
  { skip := true, table := zeroTable ++ [⟨[97], 100⟩] ++ [⟨[99], 110⟩], maxKey := some [99],
    minKey := some [97], source := fileUnsorted, pos := 130, readerErr := none,
    indexFile := some [([97], 100), ([99], 110)] }

/-- A file larger than `skipSize`, keys `a b c c` with values `1 2 3 4`: the records start at
offsets 10, 100010, 100020 and 200020, and the only synchronization boundary is at the last
record. After reading `b` at 100010, `build` jumps to 200020, into the run of `c`. -/
def fileSkipRun : SeqFile :=
  ⟨10, [⟨[97], [49], 100000, false⟩, ⟨[98], [50], 10, false⟩, ⟨[99], [51], 100000, false⟩,
    ⟨[99], [52], 10, true⟩]⟩

/-- The index that `build` makes of `fileSkipRun`. -/
def builtSkipRun : sparseFileIndex :=
  { skip := false
    table := zeroTable ++ [⟨[97], 10⟩] ++ [⟨[98], 100010⟩] ++ [⟨[99], 200020⟩]
    maxKey := some [99], minKey := some [97], source := fileSkipRun, pos := 200030,
    readerErr := none, indexFile := some [([97], 10), ([98], 100010), ([99], 200020)] }

/-- A file larger than `skipSize`, keys `a b b b c` with values `1 2 3 4 5`: the records
start at offsets 10, 100010, 100020, 200020 and 200030, and the only synchronization boundary
is at the third `b`. `build` reads the first `b` at 100010 and jumps to the third `b` at
200020. -/
def fileSkipDup : SeqFile :=
  ⟨10, [⟨[97], [49], 100000, false⟩, ⟨[98], [50], 10, false⟩, ⟨[98], [51], 100000, false⟩,
    ⟨[98], [52], 10, true⟩, ⟨[99], [53], 10, false⟩]⟩

/-- The index that `build` makes of `fileSkipDup`. -/
def builtSkipDup : sparseFileIndex :=
  { skip := false
    table := zeroTable ++ [⟨[97], 10⟩] ++ [⟨[98], 100010⟩] ++ [⟨[99], 200030⟩]
    maxKey := some [99], minKey := some [97], source := fileSkipDup, pos := 200040,
    readerErr := none, indexFile := some [([97], 10), ([98], 100010), ([99], 200030)] }

/-- A file larger than `skipSize`, keys `a c b d`, laid out as `fileSkipRun`: the record of
key `b`, smaller than the key `c` before it, lies in the bytes `build` jumps over. -/
def fileSkipUnsorted : SeqFile :=
  ⟨10, [⟨[97], [49], 100000, false⟩, ⟨[99], [50], 10, false⟩, ⟨[98], [51], 100000, false⟩,
    ⟨[100], [52], 10, true⟩]⟩

/-! ## Facts about `bytesCompare` -/

theorem bytesCompare_self (a : Bytes) : bytesCompare a a = 0 := by
  induction a with
  | nil => rfl
  | cons x xs ih => simp [bytesCompare, ih]

theorem bytesCompare_eq_zero {a b : Bytes} : bytesCompare a b = 0 ↔ a = b := by
  constructor
  · intro h
    induction a generalizing b with
    | nil => cases b with
      | nil => rfl
      | cons y ys => simp [bytesCompare] at h
    | cons x xs ih => cases b with
      | nil => simp [bytesCompare] at h
      | cons y ys =>
        simp only [bytesCompare] at h
        split_ifs at h with h1 h2
        all_goals first
          | (exfalso; revert h; decide)
          | (have hxy : x = y := by omega
             rw [hxy, ih h])
  · rintro rfl
    exact bytesCompare_self a

theorem bytesCompare_swap (a b : Bytes) : bytesCompare b a = -bytesCompare a b := by
  induction a generalizing b with
  | nil => cases b <;> simp [bytesCompare]
  | cons x xs ih => cases b with
    | nil => simp [bytesCompare]
    | cons y ys =>
      simp only [bytesCompare]
      split_ifs <;> first | omega | rfl | exact ih ys

theorem bytesCompare_range (a b : Bytes) :
    bytesCompare a b = -1 ∨ bytesCompare a b = 0 ∨ bytesCompare a b = 1 := by
  induction a generalizing b with
  | nil => cases b <;> simp [bytesCompare]
  | cons x xs ih => cases b with
    | nil => simp [bytesCompare]
    | cons y ys =>
      simp only [bytesCompare]
      split_ifs <;> first | omega | exact ih ys

theorem bytesCompare_nil_left (b : Bytes) : bytesCompare [] b ≤ 0 := by
  cases b <;> simp [bytesCompare]

theorem bytesCompare_nil_right (a : Bytes) : 0 ≤ bytesCompare a [] := by
  cases a <;> simp [bytesCompare]

theorem bytesCompare_nil_lt {b : Bytes} (h : b ≠ []) : bytesCompare [] b < 0 := by
  cases b with
  | nil => exact absurd rfl h
  | cons y ys => simp [bytesCompare]

theorem bytesCompare_le_trans {a b c : Bytes} (h1 : bytesCompare a b ≤ 0)
    (h2 : bytesCompare b c ≤ 0) : bytesCompare a c ≤ 0 := by
  induction a generalizing b c with
  | nil => exact bytesCompare_nil_left c
  | cons x xs ih => cases b with
    | nil => simp [bytesCompare] at h1
    | cons y ys => cases c with
      | nil => simp [bytesCompare] at h2
      | cons z zs =>
        simp only [bytesCompare] at h1 h2 ⊢
        split_ifs at h1 h2 ⊢ <;> first | omega | exact ih h1 h2

theorem bytesCompare_lt_of_lt_of_le {a b c : Bytes} (h1 : bytesCompare a b < 0)
    (h2 : bytesCompare b c ≤ 0) : bytesCompare a c < 0 := by
  induction a generalizing b c with
  | nil => cases c with
    | nil => cases b <;> simp [bytesCompare] at h1 h2
    | cons z zs => simp [bytesCompare]
  | cons x xs ih => cases b with
    | nil => simp [bytesCompare] at h1
    | cons y ys => cases c with
      | nil => simp [bytesCompare] at h2
      | cons z zs =>
        simp only [bytesCompare] at h1 h2 ⊢
        split_ifs at h1 h2 ⊢ <;> first | omega | exact ih h1 h2

theorem bytesCompare_lt_of_le_of_lt {a b c : Bytes} (h1 : bytesCompare a b ≤ 0)
    (h2 : bytesCompare b c < 0) : bytesCompare a c < 0 := by
  have h1' : bytesCompare b a ≥ 0 := by rw [bytesCompare_swap a b]; omega
  have h2' : bytesCompare c b > 0 := by rw [bytesCompare_swap b c]; omega
  by_contra hcon
  have h3 : bytesCompare c a ≤ 0 := by rw [bytesCompare_swap a c]; omega
  have := bytesCompare_le_trans h3 h1
  omega

/-- The order of `bytesCompare` is the lexicographic order of the byte values. -/
theorem bytesCompare_lt_iff_lex (a b : Bytes) :
    bytesCompare a b < 0 ↔ List.Lex (fun x y : Nat => x < y) a b := by
  induction a generalizing b with
  | nil =>
    cases b with
    | nil => simp [bytesCompare]
    | cons y ys => simp [bytesCompare, List.Lex.nil]
  | cons x xs ih =>
    cases b with
    | nil => simp [bytesCompare]
    | cons y ys =>
      simp only [bytesCompare]
      split_ifs with h1 h2
      · simp only [Int.reduceNeg, Int.reduceLT, true_iff]
        exact List.Lex.rel h1
      · simp only [Int.reduceLT, false_iff]
        intro h
        cases h with
        | cons h' => omega
        | rel h' => omega
      · have hxy : x = y := by omega
        subst hxy
        rw [ih]
        constructor
        · intro h; exact List.Lex.cons h
        · intro h
          cases h with
          | cons h' => exact h'
          | rel h' => omega

/-! ## Offsets and the scanner -/

theorem offsetFrom_zero (s : Nat) (rs : List Record) : offsetFrom s rs 0 = s := by
  cases rs <;> rfl

theorem offsetFrom_start_le (s : Nat) (rs : List Record) (i : Nat) :
    s ≤ offsetFrom s rs i := by
  induction rs generalizing s i with
  | nil => simp [offsetFrom]
  | cons r rs ih =>
    cases i with
    | zero => simp [offsetFrom]
    | succ i =>
      have := ih (s + r.size) i
      simp only [offsetFrom]
      omega

theorem offsetFrom_mono (s : Nat) (rs : List Record) {i j : Nat} (h : i ≤ j) :
    offsetFrom s rs i ≤ offsetFrom s rs j := by
  induction rs generalizing s i j with
  | nil => simp [offsetFrom]
  | cons r rs ih =>
    cases i with
    | zero =>
      rw [offsetFrom_zero]
      exact offsetFrom_start_le _ _ _
    | succ i =>
      cases j with
      | zero => omega
      | succ j =>
        simp only [offsetFrom]
        exact ih _ (by omega)

theorem offsetFrom_lt {s : Nat} {rs : List Record} (hpos : ∀ r ∈ rs, 0 < r.size) {i j : Nat}
    (hij : i < j) (hi : i < rs.length) : offsetFrom s rs i < offsetFrom s rs j := by
  induction rs generalizing s i j with
  | nil => simp at hi
  | cons r rs ih =>
    have hr : 0 < r.size := hpos r (List.mem_cons_self _ _)
    have hrs : ∀ r ∈ rs, 0 < r.size := fun x hx => hpos x (List.mem_cons_of_mem _ hx)
    cases j with
    | zero => omega
    | succ j =>
      cases i with
      | zero =>
        have := offsetFrom_start_le (s + r.size) rs j
        simp only [offsetFrom]
        omega
      | succ i =>
        simp only [offsetFrom]
        exact ih hrs (by omega) (by simpa using hi)

theorem scanFrom_offset {rs : List Record} (hpos : ∀ r ∈ rs, 0 < r.size) (s i : Nat) :
    scanFrom rs s (offsetFrom s rs i) =
      match rs[i]? with
      | some r => .record r (offsetFrom s rs (i + 1))
      | none => .eof := by
  induction rs generalizing s i with
  | nil => simp [scanFrom, offsetFrom]
  | cons r rs ih =>
    have hr : 0 < r.size := hpos r (List.mem_cons_self _ _)
    have hrs : ∀ r ∈ rs, 0 < r.size := fun x hx => hpos x (List.mem_cons_of_mem _ hx)
    cases i with
    | zero => simp [scanFrom, offsetFrom, offsetFrom_zero]
    | succ i =>
      have h1 := offsetFrom_start_le (s + r.size) rs i
      have h2 : offsetFrom s (r :: rs) (i + 1) = offsetFrom (s + r.size) rs i := rfl
      have h3 : offsetFrom s (r :: rs) (i + 1 + 1) = offsetFrom (s + r.size) rs (i + 1) := rfl
      rw [h2, h3]
      have h4 : ¬ offsetFrom (s + r.size) rs i = s := by omega
      have h5 : ¬ offsetFrom (s + r.size) rs i < s + r.size := by omega
      simp only [scanFrom, h4, h5, if_false, List.getElem?_cons_succ]
      exact ih hrs _ _

theorem syncFrom_some {rs : List Record} {s p q : Nat} (h : syncFrom rs s p = some q) :
    ∃ j, j < rs.length ∧ q = offsetFrom s rs j ∧ p ≤ q := by
  induction rs generalizing s with
  | nil => simp [syncFrom] at h
  | cons r rs ih =>
    simp only [syncFrom] at h
    split_ifs at h with hc
    · simp only [Bool.and_eq_true, decide_eq_true_eq] at hc
      refine ⟨0, by simp, ?_, ?_⟩
      · simp only [Option.some.injEq] at h
        rw [offsetFrom_zero]; exact h.symm
      · simp only [Option.some.injEq] at h
        omega
    · obtain ⟨j, hj, hq, hp⟩ := ih h
      exact ⟨j + 1, by simpa using hj, hq, hp⟩

theorem scan_header {f : SeqFile} {pos : Nat} (h : pos < f.headerLen) :
    f.scan pos = .failure := by
  unfold SeqFile.scan
  cases hr : f.records with
  | nil => simp [scanFrom]; omega
  | cons r rs =>
    have h1 : ¬ pos = f.headerLen := by omega
    have h2 : pos < f.headerLen + r.size := by omega
    simp [scanFrom, h1, h2]

theorem scan_offset {f : SeqFile} (hwf : f.WellFormed) (i : Nat) :
    f.scan (f.offset i) =
      match f.records[i]? with
      | some r => .record r (f.offset (i + 1))
      | none => .eof :=
  scanFrom_offset hwf _ _

theorem scan_offset_some {f : SeqFile} (hwf : f.WellFormed) {i : Nat} {r : Record}
    (h : f.records[i]? = some r) : f.scan (f.offset i) = .record r (f.offset (i + 1)) := by
  rw [scan_offset hwf, h]

theorem scan_offset_none {f : SeqFile} (hwf : f.WellFormed) {i : Nat}
    (h : f.records[i]? = none) : f.scan (f.offset i) = .eof := by
  rw [scan_offset hwf, h]

theorem offset_mono (f : SeqFile) {i j : Nat} (h : i ≤ j) : f.offset i ≤ f.offset j :=
  offsetFrom_mono _ _ h

theorem offset_lt {f : SeqFile} (hwf : f.WellFormed) {i j : Nat} (hij : i < j)
    (hi : i < f.records.length) : f.offset i < f.offset j :=
  offsetFrom_lt hwf hij hi

theorem sync_some {f : SeqFile} {p q : Nat} (h : f.sync p = some q) :
    ∃ j, j < f.records.length ∧ q = f.offset j ∧ p ≤ q :=
  syncFrom_some h

/-! ## Binary search -/

theorem searchLoop_spec (f : Nat → Bool) (fuel i j : Nat) (hij : i ≤ j) (hfuel : j - i ≤ fuel) :
    i ≤ searchLoop f fuel i j ∧ searchLoop f fuel i j ≤ j ∧
      (i < searchLoop f fuel i j → f (searchLoop f fuel i j - 1) = false) ∧
      (searchLoop f fuel i j < j → f (searchLoop f fuel i j) = true) := by
  induction fuel generalizing i j with
  | zero =>
    have : i = j := by omega
    subst this
    simp [searchLoop]
  | succ fuel ih =>
    unfold searchLoop
    by_cases hlt : i < j
    · simp only [hlt, if_true]
      have hh1 : i ≤ (i + j) / 2 := by omega
      have hh2 : (i + j) / 2 < j := by omega
      cases hf : f ((i + j) / 2) with
      | false =>
        simp only [Bool.not_false, if_true]
        obtain ⟨h1, h2, h3, h4⟩ := ih ((i + j) / 2 + 1) j (by omega) (by omega)
        refine ⟨by omega, h2, ?_, h4⟩
        intro _
        by_cases he : searchLoop f fuel ((i + j) / 2 + 1) j = (i + j) / 2 + 1
        · rw [he]; simpa using hf
        · exact h3 (by omega)
      | true =>
        simp only [Bool.not_true, Bool.false_eq_true, if_false]
        obtain ⟨h1, h2, h3, h4⟩ := ih i ((i + j) / 2) (by omega) (by omega)
        refine ⟨h1, by omega, h3, ?_⟩
        intro _
        by_cases he : searchLoop f fuel i ((i + j) / 2) = (i + j) / 2
        · rw [he]; exact hf
        · exact h4 (by omega)
    · simp only [hlt, if_false]
      refine ⟨le_refl _, hij, ?_, ?_⟩
      · intro h; exact absurd h (lt_irrefl _)
      · intro h; exact h.elim

theorem sortSearch_spec (n : Nat) (f : Nat → Bool) :
    sortSearch n f ≤ n ∧ (0 < sortSearch n f → f (sortSearch n f - 1) = false) ∧
      (sortSearch n f < n → f (sortSearch n f) = true) := by
  obtain ⟨_, h2, h3, h4⟩ := searchLoop_spec f n 0 n (Nat.zero_le _) (by omega)
  exact ⟨h2, h3, h4⟩

/-- The two ways `closest` comes about: the search hit the key exactly, or it backed up by one
onto an entry whose key is smaller than the target. It holds for every table that starts with
an entry of empty key. -/
theorem closest_cases (sfi : sparseFileIndex) (key : Bytes) (hlen : 0 < sfi.table.length)
    (h0 : keyAt sfi.table 0 = []) :
    ∃ c : Nat, sfi.closest key = (c : Int) ∧ c < sfi.table.length ∧
      (bytesCompare (keyAt sfi.table c) key = 0 ∨
        (bytesCompare (keyAt sfi.table c) key < 0 ∧
          (c + 1 = sfi.table.length ∨ bytesCompare (keyAt sfi.table (c + 1)) key > 0))) := by
  obtain ⟨h1, h2, h3⟩ := sortSearch_spec sfi.table.length
    (fun i => decide (bytesCompare (keyAt sfi.table i) key ≥ 0))
  unfold sparseFileIndex.closest
  generalize sortSearch sfi.table.length
    (fun i => decide (bytesCompare (keyAt sfi.table i) key ≥ 0)) = r at h1 h2 h3
  simp only [decide_eq_false_iff_not, decide_eq_true_eq] at h2 h3
  by_cases hc : r = sfi.table.length ∨ bytesCompare (keyAt sfi.table r) key > 0
  · have hr : 0 < r := by
      rcases hc with hc | hc
      · omega
      · rcases Nat.eq_zero_or_pos r with hz | hp
        · rw [hz, h0] at hc
          have := bytesCompare_nil_left key
          omega
        · exact hp
    refine ⟨r - 1, ?_, by omega, Or.inr ⟨?_, ?_⟩⟩
    · simp only [hc, if_true]
      omega
    · have := h2 hr
      omega
    · rcases hc with hc | hc
      · left; omega
      · right
        have : r - 1 + 1 = r := by omega
        rw [this]; exact hc
  · refine ⟨r, ?_, ?_, Or.inl ?_⟩
    · simp only [hc, if_false]
    · push_neg at hc; omega
    · push_neg at hc
      have hlt : r < sfi.table.length := by omega
      have := h3 hlt
      omega

/-! ## The table behind its zero entries, and the records by number -/

theorem zeroTable_length : zeroTable.length = initialTableLen := by
  simp [zeroTable]

theorem table_length (real : List sparseIndexEntry) :
    (zeroTable ++ real).length = initialTableLen + real.length := by
  simp [zeroTable_length]

theorem table_getD_lt (real : List sparseIndexEntry) {i : Nat} (h : i < initialTableLen) :
    (zeroTable ++ real).getD i ⟨[], 0⟩ = ⟨[], 0⟩ := by
  have h1 : i < zeroTable.length := by rw [zeroTable_length]; exact h
  rw [List.getD_eq_getElem?_getD, List.getElem?_append_left h1]
  simp [zeroTable, h]

theorem table_getD_ge (real : List sparseIndexEntry) (m : Nat) :
    (zeroTable ++ real).getD (initialTableLen + m) ⟨[], 0⟩ = real.getD m ⟨[], 0⟩ := by
  have h1 : zeroTable.length ≤ initialTableLen + m := by rw [zeroTable_length]; omega
  rw [List.getD_eq_getElem?_getD, List.getElem?_append_right h1, zeroTable_length,
    List.getD_eq_getElem?_getD]
  simp

theorem recAt_of_lt {f : SeqFile} {j : Nat} (h : j < f.records.length) :
    f.records[j]? = some (f.recAt j) := by
  simp [SeqFile.recAt, List.getD_eq_getElem?_getD, List.getElem?_eq_getElem h]

theorem recAt_mem {f : SeqFile} {j : Nat} (h : j < f.records.length) :
    f.recAt j ∈ f.records :=
  List.getElem?_mem (recAt_of_lt h)

theorem exists_recAt_of_mem {f : SeqFile} {r : Record} (h : r ∈ f.records) :
    ∃ j, j < f.records.length ∧ f.recAt j = r := by
  obtain ⟨j, hj, hr⟩ := List.getElem_of_mem h
  refine ⟨j, hj, ?_⟩
  have := recAt_of_lt hj
  rw [List.getElem?_eq_getElem hj, hr] at this
  exact (Option.some.inj this).symm

theorem scan_recAt {f : SeqFile} (hwf : f.WellFormed) {j : Nat} (h : j < f.records.length) :
    f.scan (f.offset j) = .record (f.recAt j) (f.offset (j + 1)) :=
  scan_offset_some hwf (recAt_of_lt h)

theorem scan_end {f : SeqFile} (hwf : f.WellFormed) {j : Nat} (h : f.records.length ≤ j) :
    f.scan (f.offset j) = .eof :=
  scan_offset_none hwf (List.getElem?_eq_none h)

theorem sorted_recAt {f : SeqFile} (hs : f.Sorted) {a b : Nat} (hab : a ≤ b)
    (hb : b < f.records.length) : bytesCompare (f.recAt a).key (f.recAt b).key ≤ 0 := by
  rcases Nat.eq_or_lt_of_le hab with h | h
  · subst h
    rw [bytesCompare_self]
  · have ha : a < f.records.length := by omega
    have := (List.pairwise_iff_getElem.mp hs) a b ha hb h
    have e1 := recAt_of_lt ha
    have e2 := recAt_of_lt hb
    rw [List.getElem?_eq_getElem ha] at e1
    rw [List.getElem?_eq_getElem hb] at e2
    rw [← Option.some.inj e1, ← Option.some.inj e2]
    exact this

theorem strictSorted_recAt {f : SeqFile} (hs : f.StrictSorted) {a b : Nat} (hab : a < b)
    (hb : b < f.records.length) : bytesCompare (f.recAt a).key (f.recAt b).key < 0 := by
  have ha : a < f.records.length := by omega
  have := (List.pairwise_iff_getElem.mp hs) a b ha hb hab
  have e1 := recAt_of_lt ha
  have e2 := recAt_of_lt hb
  rw [List.getElem?_eq_getElem ha] at e1
  rw [List.getElem?_eq_getElem hb] at e2
  rw [← Option.some.inj e1, ← Option.some.inj e2]
  exact this

theorem StrictSorted.sorted {f : SeqFile} (hs : f.StrictSorted) : f.Sorted :=
  List.Pairwise.imp (fun h => le_of_lt h) hs

/-! ## The forward scan of `get` -/

theorem getScan_absent {f : SeqFile} (hwf : f.WellFormed) (key : Bytes)
    (habs : ∀ r ∈ f.records, r.key ≠ key) (fuel j : Nat) (hfuel : f.records.length - j < fuel) :
    getScan f key fuel (f.offset j) = .ret none none := by
  induction fuel generalizing j with
  | zero => omega
  | succ fuel ih =>
    unfold getScan
    by_cases hj : j < f.records.length
    · rw [scan_recAt hwf hj]
      have hne : bytesCompare (f.recAt j).key key ≠ 0 := fun h =>
        habs _ (recAt_mem hj) (bytesCompare_eq_zero.mp h)
      simp only [hne, if_false]
      split_ifs
      · rfl
      · exact ih (j + 1) (by omega)
    · rw [scan_end hwf (by omega)]

theorem getScan_found {f : SeqFile} (hwf : f.WellFormed) (key : Bytes) {t : Nat}
    (ht : t < f.records.length) (hkey : (f.recAt t).key = key) (fuel j : Nat) (hjt : j ≤ t)
    (hbelow : ∀ u, j ≤ u → u < t → bytesCompare (f.recAt u).key key < 0)
    (hfuel : t - j < fuel) :
    getScan f key fuel (f.offset j) = .ret (some (f.recAt t).value) none := by
  induction fuel generalizing j with
  | zero => omega
  | succ fuel ih =>
    unfold getScan
    have hj : j < f.records.length := by omega
    rw [scan_recAt hwf hj]
    rcases Nat.eq_or_lt_of_le hjt with h | h
    · subst h
      have : bytesCompare (f.recAt j).key key = 0 := bytesCompare_eq_zero.mpr hkey
      simp only [this, if_true]
    · have hlt := hbelow j (le_refl _) h
      have h1 : ¬ bytesCompare (f.recAt j).key key = 0 := by omega
      have h2 : ¬ bytesCompare (f.recAt j).key key > 0 := by omega
      simp only [h1, h2, if_false]
      exact ih (j + 1) (by omega) (fun u hu1 hu2 => hbelow u (by omega) hu2) (by omega)

/-! ## Where `closest` points -/

theorem closest_real (s : sparseFileIndex) (real : List sparseIndexEntry) (key : Bytes)
    (htable : s.table = zeroTable ++ real) (e0 : sparseIndexEntry)
    (hhead : real.head? = some e0) (hle : bytesCompare e0.key key ≤ 0) (hk : key ≠ []) :
    ∃ m e, real[m]? = some e ∧ s.closest key = ((initialTableLen + m : Nat) : Int) ∧
      s.table.getD (initialTableLen + m) ⟨[], 0⟩ = e ∧
      (bytesCompare e.key key = 0 ∨
        (bytesCompare e.key key < 0 ∧
          ∀ e', real[m + 1]? = some e' → bytesCompare e'.key key > 0)) := by
  have hN : 0 < initialTableLen := by decide
  have hreal : 0 < real.length := by
    cases real with
    | nil => simp at hhead
    | cons a as => simp
  have hlen : s.table.length = initialTableLen + real.length := by
    rw [htable, table_length]
  have h0 : keyAt s.table 0 = [] := by
    unfold keyAt
    rw [htable, table_getD_lt real hN]
  obtain ⟨c, hc, hclt, hcase⟩ := closest_cases s key (by omega) h0
  have hkey0 : ∀ i, i < initialTableLen → keyAt s.table i = [] := by
    intro i hi
    unfold keyAt
    rw [htable, table_getD_lt real hi]
  have hkeyN : ∀ m, keyAt s.table (initialTableLen + m) = (real.getD m ⟨[], 0⟩).key := by
    intro m
    unfold keyAt
    rw [htable, table_getD_ge]
  have hreal0 : real.getD 0 ⟨[], 0⟩ = e0 := by
    cases real with
    | nil => simp at hhead
    | cons a as =>
      simp only [List.head?_cons, Option.some.injEq] at hhead
      simp [hhead]
  by_cases hcN : c < initialTableLen
  · exfalso
    rcases hcase with hA | ⟨hB1, hB2⟩
    · rw [hkey0 c hcN] at hA
      exact hk (bytesCompare_eq_zero.mp hA).symm
    · rcases hB2 with hB2 | hB2
      · omega
      · by_cases hc1 : c + 1 < initialTableLen
        · rw [hkey0 _ hc1] at hB2
          have := bytesCompare_nil_left key
          omega
        · have hc2 : c + 1 = initialTableLen + 0 := by omega
          rw [hc2, hkeyN 0, hreal0] at hB2
          omega
  · obtain ⟨m, rfl⟩ : ∃ m, c = initialTableLen + m := ⟨c - initialTableLen, by omega⟩
    have hm : m < real.length := by omega
    refine ⟨m, real[m], List.getElem?_eq_getElem hm, hc, ?_, ?_⟩
    · rw [htable, table_getD_ge, List.getD_eq_getElem?_getD, List.getElem?_eq_getElem hm]
      rfl
    · have hkm : keyAt s.table (initialTableLen + m) = (real[m]).key := by
        rw [hkeyN, List.getD_eq_getElem?_getD, List.getElem?_eq_getElem hm]
        rfl
      rw [hkm] at hcase
      rcases hcase with hA | ⟨hB1, hB2⟩
      · exact Or.inl hA
      · refine Or.inr ⟨hB1, ?_⟩
        intro e' he'
        have hm1 : m + 1 < real.length := by
          by_contra hcon
          rw [List.getElem?_eq_none (by omega)] at he'
          exact Option.noConfusion he'
        rcases hB2 with hB2 | hB2
        · omega
        · have : initialTableLen + m + 1 = initialTableLen + (m + 1) := by omega
          rw [this, hkeyN, List.getD_eq_getElem?_getD, he'] at hB2
          exact hB2

/-! ## The loop of `build` -/

theorem Visited.of_fields {f : SeqFile} {s s' : sparseFileIndex} {real : List sparseIndexEntry}
    {l : Nat} (v : Visited f s real l) (h1 : s'.source = s.source)
    (h2 : s'.readerErr = s.readerErr) (h3 : s'.table = s.table)
    (h4 : s'.indexFile = s.indexFile) (h5 : s'.minKey = s.minKey)
    (h6 : s'.maxKey = s.maxKey) : Visited f s' real l :=
  { source := h1.trans v.source
    noErr := h2.trans v.noErr
    table := h3.trans v.table
    indexFile := h4.trans v.indexFile
    lt := v.lt
    minKey := h5.trans v.minKey
    head := v.head
    maxKey := h6.trans v.maxKey
    entries := v.entries
    bounded := v.bounded
    sortedKeys := v.sortedKeys
    sortedOffsets := v.sortedOffsets
    dense := v.dense
    denseSorted := v.denseSorted }

theorem visited_first {f : SeqFile} {s' : sparseFileIndex} (hn : 0 < f.records.length)
    (h1 : s'.source = f) (h2 : s'.readerErr = none)
    (h3 : s'.table = zeroTable ++ [⟨(f.recAt 0).key, f.offset 0⟩])
    (h4 : s'.indexFile = some [((f.recAt 0).key, f.offset 0)])
    (h5 : s'.minKey = some (f.recAt 0).key) (h6 : s'.maxKey = some (f.recAt 0).key) :
    Visited f s' [⟨(f.recAt 0).key, f.offset 0⟩] 0 :=
  { source := h1
    noErr := h2
    table := h3
    indexFile := by rw [h4]; rfl
    lt := hn
    minKey := h5
    head := rfl
    maxKey := h6
    entries := by
      intro e he
      refine ⟨0, le_refl _, ?_⟩
      simpa using he
    bounded := by
      intro e he
      have : e = ⟨(f.recAt 0).key, f.offset 0⟩ := by simpa using he
      rw [this, bytesCompare_self]
    sortedKeys := List.pairwise_singleton _ _
    sortedOffsets := List.pairwise_singleton _ _
    dense := by intro j hj; omega
    denseSorted := by intro a b hab hb; omega }

theorem dense_step {f : SeqFile} {s : sparseFileIndex} {real real' : List sparseIndexEntry}
    {l i : Nat} (v : Visited f s real l) (hl : l < i)
    (step : i = l + 1 ∨ skipSize < f.offset l) (hsub : ∀ e ∈ real, e ∈ real')
    (hnew : i = l + 1 → bytesCompare (f.recAt l).key (f.recAt i).key < 0 →
      (⟨(f.recAt i).key, f.offset i⟩ : sparseIndexEntry) ∈ real') :
    ∀ j, j + 1 ≤ i → f.offset j ≤ skipSize →
      bytesCompare (f.recAt j).key (f.recAt (j + 1)).key < 0 →
      (⟨(f.recAt (j + 1)).key, f.offset (j + 1)⟩ : sparseIndexEntry) ∈ real' := by
  intro j hj hoff hcmp
  by_cases hjl : j + 1 ≤ l
  · exact hsub _ (v.dense j hjl hoff hcmp)
  · have hlj : l ≤ j := by omega
    have hmono := offset_mono f hlj
    rcases step with hstep | hstep
    · have hjeq : j = l := by omega
      subst hjeq
      have hi' : i = j + 1 := hstep
      subst hi'
      exact hnew rfl hcmp
    · omega

theorem denseSorted_step {f : SeqFile} {s : sparseFileIndex} {real : List sparseIndexEntry}
    {l i : Nat} (v : Visited f s real l) (hl : l < i)
    (step : i = l + 1 ∨ skipSize < f.offset l)
    (hle : bytesCompare (f.recAt l).key (f.recAt i).key ≤ 0) :
    ∀ a b, a < b → b ≤ i → f.offset (b - 1) ≤ skipSize →
      bytesCompare (f.recAt a).key (f.recAt b).key ≤ 0 := by
  intro a b hab hb hoff
  by_cases hbl : b ≤ l
  · exact v.denseSorted a b hab hbl hoff
  · have hlb : l ≤ b - 1 := by omega
    have hmono := offset_mono f hlb
    rcases step with hstep | hstep
    · have hbi : b = i := by omega
      subst hbi
      rcases Nat.eq_or_lt_of_le (show a ≤ l by omega) with hal | hal
      · rw [hal]; exact hle
      · have hoff' : f.offset (l - 1) ≤ skipSize := by
          have := offset_mono f (show l - 1 ≤ b - 1 by omega)
          omega
        exact bytesCompare_le_trans (v.denseSorted a l hal (le_refl _) hoff') hle
    · omega

theorem visited_dup {f : SeqFile} {s s' : sparseFileIndex} {real : List sparseIndexEntry}
    {l i : Nat} (v : Visited f s real l) (hl : l < i) (hi : i < f.records.length)
    (step : i = l + 1 ∨ skipSize < f.offset l)
    (hcmp : bytesCompare (f.recAt i).key (f.recAt l).key = 0)
    (h1 : s'.source = s.source) (h2 : s'.readerErr = s.readerErr) (h3 : s'.table = s.table)
    (h4 : s'.indexFile = s.indexFile) (h5 : s'.minKey = s.minKey)
    (h6 : s'.maxKey = s.maxKey) : Visited f s' real i := by
  have hkey : (f.recAt i).key = (f.recAt l).key := bytesCompare_eq_zero.mp hcmp
  exact
    { source := h1.trans v.source
      noErr := h2.trans v.noErr
      table := h3.trans v.table
      indexFile := h4.trans v.indexFile
      lt := hi
      minKey := h5.trans v.minKey
      head := v.head
      maxKey := by rw [h6, v.maxKey, hkey]
      entries := by
        intro e he
        obtain ⟨j, hj, hej⟩ := v.entries e he
        exact ⟨j, by omega, hej⟩
      bounded := by
        intro e he
        rw [hkey]
        exact v.bounded e he
      sortedKeys := v.sortedKeys
      sortedOffsets := v.sortedOffsets
      dense := dense_step v hl step (fun e he => he) (by
        intro _ hlt
        rw [hkey, bytesCompare_self] at hlt
        omega)
      denseSorted := denseSorted_step v hl step (by rw [hkey, bytesCompare_self]) }

theorem visited_new {f : SeqFile} (hwf : f.WellFormed) {s s' : sparseFileIndex}
    {real : List sparseIndexEntry}
    {l i : Nat} (v : Visited f s real l) (hl : l < i) (hi : i < f.records.length)
    (step : i = l + 1 ∨ skipSize < f.offset l)
    (hcmp : bytesCompare (f.recAt i).key (f.recAt l).key > 0)
    (h1 : s'.source = s.source) (h2 : s'.readerErr = s.readerErr)
    (h3 : s'.table = s.table ++ [⟨(f.recAt i).key, f.offset i⟩])
    (h4 : s'.indexFile = s.indexFile.map (fun kvs => kvs ++ [((f.recAt i).key, f.offset i)]))
    (h5 : s'.minKey = s.minKey) (h6 : s'.maxKey = some (f.recAt i).key) :
    Visited f s' (real ++ [⟨(f.recAt i).key, f.offset i⟩]) i := by
  have hlt : bytesCompare (f.recAt l).key (f.recAt i).key < 0 := by
    rw [bytesCompare_swap]; omega
  exact
    { source := h1.trans v.source
      noErr := h2.trans v.noErr
      table := by rw [h3, v.table, List.append_assoc]
      indexFile := by rw [h4, v.indexFile]; simp
      lt := hi
      minKey := h5.trans v.minKey
      head := by
        have hh := v.head
        cases real with
        | nil => simp at hh
        | cons a as => simpa using hh
      maxKey := h6
      entries := by
        intro e he
        rcases List.mem_append.mp he with he | he
        · obtain ⟨j, hj, hej⟩ := v.entries e he
          exact ⟨j, by omega, hej⟩
        · exact ⟨i, le_refl _, by simpa using he⟩
      bounded := by
        intro e he
        rcases List.mem_append.mp he with he | he
        · exact bytesCompare_le_trans (v.bounded e he) (le_of_lt hlt)
        · have : e = ⟨(f.recAt i).key, f.offset i⟩ := by simpa using he
          rw [this, bytesCompare_self]
      sortedKeys := by
        rw [List.pairwise_append]
        refine ⟨v.sortedKeys, List.pairwise_singleton _ _, ?_⟩
        intro a ha b hb
        have : b = ⟨(f.recAt i).key, f.offset i⟩ := by simpa using hb
        rw [this]
        exact bytesCompare_lt_of_le_of_lt (v.bounded a ha) hlt
      sortedOffsets := by
        rw [List.pairwise_append]
        refine ⟨v.sortedOffsets, List.pairwise_singleton _ _, ?_⟩
        intro a ha b hb
        have : b = ⟨(f.recAt i).key, f.offset i⟩ := by simpa using hb
        rw [this]
        obtain ⟨j, hj, hej⟩ := v.entries a ha
        rw [hej]
        exact offset_lt hwf (show j < i by omega) (by omega)
      dense := dense_step v hl step (fun e he => List.mem_append_left _ he) (by
        intro _ _
        exact List.mem_append_right _ (List.mem_singleton_self _))
      denseSorted := denseSorted_step v hl step (le_of_lt hlt) }

theorem skipPhase_inv {f : SeqFile} (hwf : f.WellFormed) {s : sparseFileIndex}
    {real : List sparseIndexEntry} {i : Nat} (v : Visited f s real i)
    (hpos : s.pos = f.offset (i + 1)) :
    ∃ i', i < i' ∧ LoopInv f (s.skipPhase (f.offset i)) i' := by
  unfold sparseFileIndex.skipPhase
  by_cases hc : (s.skip && decide (f.offset i > skipSize)) = true
  · simp only [hc, if_true]
    have hskip : skipSize < f.offset i := by
      simp only [Bool.and_eq_true, decide_eq_true_eq] at hc
      exact hc.2
    cases hs : s.skipAndSync with
    | none =>
      have hscan : s.source.scan (f.offset i) = .record (f.recAt i) (f.offset (i + 1)) := by
        rw [v.source]; exact scan_recAt hwf v.lt
      simp only [hscan]
      exact ⟨i + 1, by omega,
        LoopInv.running real i (v.of_fields rfl rfl rfl rfl rfl rfl) (by omega) rfl (Or.inl rfl)⟩
    | some q =>
      simp only []
      unfold sparseFileIndex.skipAndSync at hs
      rw [v.source] at hs
      obtain ⟨j, hj, hq, hp⟩ := sync_some hs
      have hij : i < j := by
        by_contra hcon
        have h1 := offset_mono f (show j ≤ i by omega)
        have h2 := offset_lt hwf (show i < i + 1 by omega) v.lt
        omega
      exact ⟨j, hij,
        LoopInv.running real i (v.of_fields rfl rfl rfl rfl rfl rfl) hij hq (Or.inr ⟨hj, hskip⟩)⟩
  · simp only [hc, if_false]
    exact ⟨i + 1, by omega, LoopInv.running real i v (by omega) hpos (Or.inl rfl)⟩

theorem buildBody_step {f : SeqFile} (hwf : f.WellFormed) {s : sparseFileIndex} {i : Nat}
    (inv : LoopInv f s i) (hi : i < f.records.length) :
    (∃ s' i', buildBody s = .next s' ∧ i < i' ∧ LoopInv f s' i') ∨
    (∃ s' l, buildBody s = .ret s' (some .errNotSorted) ∧ s'.source = f ∧
      s'.indexFile.isSome = true ∧ l < i ∧
      bytesCompare (f.recAt i).key (f.recAt l).key < 0) := by
  cases inv with
  | fresh hi0 hsrc herr hpos hmin hmax htable hidx =>
    subst hi0
    left
    have hscan : s.source.scan s.pos = .record (f.recAt 0) (f.offset (0 + 1)) := by
      rw [hsrc, hpos]; exact scan_recAt hwf hi
    unfold buildBody
    simp only [hscan, hmin, hmax, if_true, buildTail]
    rw [hpos]
    have v : Visited f
        (sparseFileIndex.addEntry
          { skip := s.skip, table := s.table, maxKey := some (f.recAt 0).key,
            minKey := some (f.recAt 0).key, source := s.source, pos := f.offset (0 + 1),
            readerErr := s.readerErr, indexFile := s.indexFile } (f.offset 0) (f.recAt 0).key)
        [⟨(f.recAt 0).key, f.offset 0⟩] 0 :=
      visited_first hi hsrc herr (by
        show s.table ++ [⟨(f.recAt 0).key, f.offset 0⟩] = _
        rw [htable]) (by
        show s.indexFile.map _ = _
        rw [hidx]; rfl) rfl rfl
    obtain ⟨i', hi', hinv⟩ := skipPhase_inv hwf v rfl
    exact ⟨_, i', rfl, hi', hinv⟩
  | running real l v hl hpos step =>
    have hscan : s.source.scan s.pos = .record (f.recAt i) (f.offset (i + 1)) := by
      rw [v.source, hpos]; exact scan_recAt hwf hi
    have hmin : ¬ s.minKey = none := by rw [v.minKey]; simp
    have step' : i = l + 1 ∨ skipSize < f.offset l := by
      rcases step with h | h
      · exact Or.inl h
      · exact Or.inr h.2
    unfold buildBody
    simp only [hscan, hmin, v.maxKey, if_false]
    by_cases hlt : bytesCompare (f.recAt i).key (f.recAt l).key < 0
    · right
      simp only [hlt, if_true]
      refine ⟨_, l, rfl, v.source, ?_, hl, hlt⟩
      show s.indexFile.isSome = true
      rw [v.indexFile]; rfl
    · left
      simp only [hlt, if_false]
      by_cases heq : bytesCompare (f.recAt i).key (f.recAt l).key = 0
      · simp only [heq, if_true, buildTail, Bool.false_eq_true, if_false]
        have v' : Visited f
            { skip := s.skip, table := s.table, maxKey := some (f.recAt l).key,
              minKey := s.minKey, source := s.source, pos := f.offset (i + 1),
              readerErr := s.readerErr, indexFile := s.indexFile } real i :=
          visited_dup v hl hi step' heq rfl rfl rfl rfl rfl v.maxKey.symm
        obtain ⟨i', hi', hinv⟩ := skipPhase_inv hwf v' rfl
        rw [hpos]
        exact ⟨_, i', rfl, hi', hinv⟩
      · simp only [heq, if_false, buildTail, if_true]
        have v' : Visited f
            (sparseFileIndex.addEntry
              { skip := s.skip, table := s.table, maxKey := some (f.recAt i).key,
                minKey := s.minKey, source := s.source, pos := f.offset (i + 1),
                readerErr := s.readerErr, indexFile := s.indexFile }
              (f.offset i) (f.recAt i).key)
            (real ++ [⟨(f.recAt i).key, f.offset i⟩]) i :=
          visited_new hwf v hl hi step' (by omega) rfl rfl rfl rfl rfl rfl
        obtain ⟨i', hi', hinv⟩ := skipPhase_inv hwf v' rfl
        rw [hpos]
        exact ⟨_, i', rfl, hi', hinv⟩

theorem buildBody_end {f : SeqFile} (hwf : f.WellFormed) {s : sparseFileIndex} {i : Nat}
    (hsrc : s.source = f) (hpos : s.pos = f.offset i) (hi : f.records.length ≤ i) :
    buildBody s = .brk s := by
  have hscan : s.source.scan s.pos = .eof := by
    rw [hsrc, hpos]; exact scan_end hwf hi
  unfold buildBody
  simp only [hscan]

theorem LoopInv.source {f : SeqFile} {s : sparseFileIndex} {i : Nat} (inv : LoopInv f s i) :
    s.source = f := by
  cases inv with
  | fresh _ hsrc => exact hsrc
  | running real l v => exact v.source

theorem LoopInv.pos {f : SeqFile} {s : sparseFileIndex} {i : Nat} (inv : LoopInv f s i) :
    s.pos = f.offset i := by
  cases inv with
  | fresh hi0 _ _ hpos => rw [hi0]; exact hpos
  | running real l v hl hpos => exact hpos

theorem LoopInv.noErr {f : SeqFile} {s : sparseFileIndex} {i : Nat} (inv : LoopInv f s i) :
    s.readerErr = none := by
  cases inv with
  | fresh _ _ herr => exact herr
  | running real l v => exact v.noErr

theorem LoopInv.indexFile {f : SeqFile} {s : sparseFileIndex} {i : Nat}
    (inv : LoopInv f s i) : s.indexFile.isSome = true := by
  cases inv with
  | fresh _ _ _ _ _ _ _ hidx => rw [hidx]; rfl
  | running real l v => rw [v.indexFile]; rfl

theorem LoopInv.built {f : SeqFile} {s : sparseFileIndex} {i : Nat} (inv : LoopInv f s i)
    (hi : f.records.length ≤ i) : ∃ real, Built f s real := by
  cases inv with
  | fresh hi0 hsrc herr hpos hmin hmax htable hidx =>
    have hn : f.records.length = 0 := by omega
    refine ⟨[], ?_⟩
    exact
      { source := hsrc
        table := by rw [htable]; simp
        indexFile := by rw [hidx]; rfl
        entries := by intro e he; simp at he
        sortedKeys := List.Pairwise.nil
        sortedOffsets := List.Pairwise.nil
        empty := fun _ => ⟨hmin, hmax, rfl⟩
        minKey := by intro h; omega
        head := by intro h; omega
        maxKey := by intro h; omega
        dense := by intro j hj; omega
        denseSorted := by intro a b hab hb; omega }
  | running real l v hl hpos step =>
    have hlt := v.lt
    have hil : i = l + 1 := by
      rcases step with h | h
      · exact h
      · omega
    have hln : l = f.records.length - 1 := by omega
    refine ⟨real, ?_⟩
    exact
      { source := v.source
        table := v.table
        indexFile := v.indexFile
        entries := by
          intro e he
          obtain ⟨j, hj, hej⟩ := v.entries e he
          exact ⟨j, by omega, hej⟩
        sortedKeys := v.sortedKeys
        sortedOffsets := v.sortedOffsets
        empty := by intro h; omega
        minKey := fun _ => v.minKey
        head := fun _ => v.head
        maxKey := by intro _; rw [← hln]; exact v.maxKey
        dense := by
          intro j hj
          exact v.dense j (by omega)
        denseSorted := by
          intro a b hab hb
          exact v.denseSorted a b hab (by omega) }

/-- The loop of `build` ends within its fuel: without error, leaving a built index, or with
`errNotSorted` at a record whose key is smaller than the key of an earlier record. -/
theorem buildLoop_spec {f : SeqFile} (hwf : f.WellFormed) (fuel : Nat) {s : sparseFileIndex}
    {i : Nat} (inv : LoopInv f s i) (hfuel : f.records.length - i < fuel) :
    ∃ s' e, buildLoop fuel s = some (s', e) ∧ s'.source = f ∧ s'.indexFile.isSome = true ∧
      ((e = none ∧ ∃ real, Built f s' real) ∨
        (e = some .errNotSorted ∧ ∃ a b, a < b ∧ b < f.records.length ∧
          bytesCompare (f.recAt b).key (f.recAt a).key < 0)) := by
  induction fuel generalizing s i with
  | zero => omega
  | succ fuel ih =>
    unfold buildLoop
    by_cases hi : i < f.records.length
    · rcases buildBody_step hwf inv hi with ⟨s', i', hb, hii, hinv⟩ | ⟨s', l, hb, hsrc, hidx, hl, hc⟩
      · rw [hb]
        exact ih hinv (by omega)
      · rw [hb]
        exact ⟨s', _, rfl, hsrc, hidx, Or.inr ⟨rfl, l, i, hl, hi, hc⟩⟩
    · rw [buildBody_end hwf inv.source inv.pos (by omega)]
      exact ⟨s, _, rfl, inv.source, inv.indexFile,
        Or.inl ⟨inv.noErr, inv.built (by omega)⟩⟩

/-- On a well-formed file `build` returns: without error, leaving a built index, or with
`errNotSorted` when some record has a key smaller than the key of an earlier record. -/
theorem build_spec {f : SeqFile} (hwf : f.WellFormed) (idx : Option (List (Bytes × Nat))) :
    ∃ s' e, (newSparseFileIndex f idx).build = some (s', e) ∧ s'.source = f ∧
      s'.indexFile.isSome = true ∧
      ((e = none ∧ ∃ real, Built f s' real) ∨
        (e = some .errNotSorted ∧ ∃ a b, a < b ∧ b < f.records.length ∧
          bytesCompare (f.recAt b).key (f.recAt a).key < 0)) := by
  unfold sparseFileIndex.build
  have inv : LoopInv f
      { (newSparseFileIndex f idx).open with indexFile := some [] } 0 :=
    LoopInv.fresh rfl rfl rfl (by
      show f.headerLen = f.offset 0
      unfold SeqFile.offset
      rw [offsetFrom_zero]) rfl rfl rfl rfl
  exact buildLoop_spec hwf _ inv (by
    show f.records.length - 0 < f.records.length + 1
    omega)

theorem build_ok {f : SeqFile} (hwf : f.WellFormed) {idx : Option (List (Bytes × Nat))}
    {s : sparseFileIndex} (h : (newSparseFileIndex f idx).build = some (s, none)) :
    ∃ real, Built f s real := by
  obtain ⟨s', e, hb, _, _, hcase⟩ := build_spec hwf idx
  rw [hb] at h
  simp only [Option.some.injEq, Prod.mk.injEq] at h
  obtain ⟨hs, he⟩ := h
  subst hs
  rcases hcase with ⟨_, hreal⟩ | ⟨he', _⟩
  · exact hreal
  · rw [he'] at he; exact absurd he (by simp)

/-! ## `get` on a built index -/

theorem get_at_real {s : sparseFileIndex} {real : List sparseIndexEntry} {key : Bytes}
    {m : Nat} {e : sparseIndexEntry} (htable : s.table = zeroTable ++ real)
    (hm : real[m]? = some e)
    (hmin : ¬ bytesCompare key (bytesOf s.minKey) < 0)
    (hmax : ¬ bytesCompare key (bytesOf s.maxKey) > 0)
    (hc : s.closest key = ((initialTableLen + m : Nat) : Int))
    (he : s.table.getD (initialTableLen + m) ⟨[], 0⟩ = e) :
    s.get key = getScan s.source key (s.source.records.length + 1) e.offset := by
  have hml : m < real.length := by
    by_contra hcon
    rw [List.getElem?_eq_none (by omega)] at hm
    exact Option.noConfusion hm
  have hlen : s.table.length = initialTableLen + real.length := by
    rw [htable, table_length]
  unfold sparseFileIndex.get
  have hprune : ¬ (bytesCompare key (bytesOf s.minKey) < 0 ∨
      bytesCompare key (bytesOf s.maxKey) > 0) := by
    intro h
    rcases h with h | h
    · exact hmin h
    · exact hmax h
  simp only [hprune, if_false, hc]
  have hrange : (0 : Int) ≤ ((initialTableLen + m : Nat) : Int) ∧
      ((initialTableLen + m : Nat) : Int) < (s.table.length : Int) := by
    constructor
    · exact Int.ofNat_nonneg _
    · rw [hlen]; exact_mod_cast (by omega : initialTableLen + m < initialTableLen + real.length)
  simp only [hrange, and_self, if_true, Int.toNat_ofNat, he]

theorem get_absent_of_built {f : SeqFile} (hwf : f.WellFormed) {s : sparseFileIndex}
    {real : List sparseIndexEntry} (hb : Built f s real) (key : Bytes)
    (habs : ∀ r ∈ f.records, r.key ≠ key) (hne : f.records ≠ [] ∨ key ≠ []) :
    s.get key = .ret none none := by
  by_cases hprune : bytesCompare key (bytesOf s.minKey) < 0 ∨
      bytesCompare key (bytesOf s.maxKey) > 0
  · unfold sparseFileIndex.get
    simp only [hprune, if_true]
  · have hmin : ¬ bytesCompare key (bytesOf s.minKey) < 0 := fun h => hprune (Or.inl h)
    have hmax : ¬ bytesCompare key (bytesOf s.maxKey) > 0 := fun h => hprune (Or.inr h)
    have hn : 0 < f.records.length := by
      by_contra hcon
      have hn0 : f.records.length = 0 := by omega
      have hk : key ≠ [] := by
        rcases hne with h | h
        · exact absurd (List.length_eq_zero.mp hn0) h
        · exact h
      obtain ⟨_, hmaxk, _⟩ := hb.empty hn0
      rw [hmaxk] at hmax
      apply hmax
      have h1 := bytesCompare_nil_lt hk
      rw [bytesCompare_swap] at h1
      show bytesCompare key [] > 0
      omega
    have hminK := hb.minKey hn
    rw [hminK] at hmin
    have hle : bytesCompare (f.recAt 0).key key ≤ 0 := by
      rw [bytesCompare_swap]
      have : ¬ bytesCompare key (f.recAt 0).key < 0 := hmin
      omega
    have hk : key ≠ [] := by
      intro hk
      rw [hk] at hle
      have h0 := bytesCompare_nil_right (f.recAt 0).key
      have : bytesCompare (f.recAt 0).key [] = 0 := by omega
      exact habs _ (recAt_mem hn) ((bytesCompare_eq_zero.mp this).trans hk.symm)
    obtain ⟨m, e, hm, hc, he, _⟩ :=
      closest_real s real key hb.table _ (hb.head hn) hle hk
    rw [← hminK] at hmin
    rw [get_at_real hb.table hm hmin hmax hc he]
    obtain ⟨j, hj, hej⟩ := hb.entries e (List.getElem?_mem hm)
    rw [hej, hb.source]
    exact getScan_absent hwf key habs _ j (by omega)

/-- On a built index over a sorted file, `get` of a non-empty key that occurs in the file
returns the value of the record at the offset of the table entry for that key, or, when the
table has no entry for the key, the value of the first record with that key. -/
theorem get_found_of_built {f : SeqFile} (hwf : f.WellFormed) (hs : f.Sorted)
    {s : sparseFileIndex} {real : List sparseIndexEntry} (hb : Built f s real) (key : Bytes)
    (hk : key ≠ []) (t : Nat) (ht : t < f.records.length) (hkey : (f.recAt t).key = key)
    (hfirst : ∀ u, u < t → (f.recAt u).key ≠ key) :
    (∃ j, j < f.records.length ∧ (⟨key, f.offset j⟩ : sparseIndexEntry) ∈ real ∧
        (f.recAt j).key = key ∧ s.get key = .ret (some (f.recAt j).value) none) ∨
      ((∀ e ∈ real, e.key ≠ key) ∧ s.get key = .ret (some (f.recAt t).value) none) := by
  have hn : 0 < f.records.length := by omega
  have hle : bytesCompare (f.recAt 0).key key ≤ 0 := by
    rw [← hkey]; exact sorted_recAt hs (Nat.zero_le _) ht
  have hmin : ¬ bytesCompare key (bytesOf s.minKey) < 0 := by
    rw [hb.minKey hn]
    show ¬ bytesCompare key (f.recAt 0).key < 0
    rw [bytesCompare_swap]; omega
  have hmax : ¬ bytesCompare key (bytesOf s.maxKey) > 0 := by
    rw [hb.maxKey hn]
    show ¬ bytesCompare key (f.recAt (f.records.length - 1)).key > 0
    have := sorted_recAt hs (show t ≤ f.records.length - 1 by omega) (by omega)
    rw [hkey] at this
    omega
  obtain ⟨m, e, hm, hc, he, hcase⟩ := closest_real s real key hb.table _ (hb.head hn) hle hk
  have hget := get_at_real hb.table hm hmin hmax hc he
  have hmem := List.getElem?_mem hm
  obtain ⟨j, hj, hej⟩ := hb.entries e hmem
  rw [hb.source] at hget
  have hekey : e.key = (f.recAt j).key := by rw [hej]
  have heoff : e.offset = f.offset j := by rw [hej]
  rw [heoff] at hget
  rcases hcase with hA | ⟨hB1, hB2⟩
  · left
    have hjk : (f.recAt j).key = key := by
      rw [← hekey]; exact bytesCompare_eq_zero.mp hA
    refine ⟨j, hj, ?_, hjk, ?_⟩
    · rw [← hjk, ← hej]; exact hmem
    · rw [hget]
      exact getScan_found hwf key hj hjk _ j (le_refl _) (by intro u h1 h2; omega) (by omega)
  · right
    rw [hekey] at hB1
    have hjt : j < t := by
      by_contra hcon
      have := sorted_recAt hs (show t ≤ j by omega) hj
      rw [hkey, bytesCompare_swap] at this
      omega
    constructor
    · intro e' he' hke'
      have hml : m < real.length := by
        by_contra hcon
        rw [List.getElem?_eq_none (by omega)] at hm
        exact Option.noConfusion hm
      obtain ⟨m', hm'l, hm'⟩ := List.getElem_of_mem he'
      have hpw := List.pairwise_iff_getElem.mp hb.sortedKeys
      have hem : real[m] = e := by
        have := List.getElem?_eq_getElem hml
        rw [hm] at this
        exact (Option.some.inj this).symm
      rcases Nat.lt_trichotomy m' m with h | h | h
      · have := hpw m' m hm'l hml h
        rw [hm', hem, hke', hekey] at this
        have h2 := bytesCompare_lt_of_lt_of_le this (le_of_lt hB1)
        rw [bytesCompare_self] at h2
        omega
      · subst h
        rw [hm'] at hem
        rw [hem, hekey] at hke'
        rw [hke', bytesCompare_self] at hB1
        omega
      · have hm1 : m + 1 < real.length := by omega
        have hnext := hB2 (real[m + 1]) (List.getElem?_eq_getElem hm1)
        rcases Nat.eq_or_lt_of_le (show m + 1 ≤ m' by omega) with h' | h'
        · subst h'
          rw [hm', hke', bytesCompare_self] at hnext
          omega
        · have := hpw (m + 1) m' hm1 hm'l h'
          rw [hm', hke'] at this
          omega
    · rw [hget]
      refine getScan_found hwf key ht hkey _ j (le_of_lt hjt) ?_ (by omega)
      intro u hu1 hu2
      have h1 := sorted_recAt hs (le_of_lt hu2) ht
      rw [hkey] at h1
      have h2 : bytesCompare (f.recAt u).key key ≠ 0 := fun h =>
        hfirst u hu2 (bytesCompare_eq_zero.mp h)
      omega

/-- Lookup of the empty key goes to the zero entry at the head of the table, whose offset 0
lies inside the header. -/
theorem get_empty_key {s : sparseFileIndex} {real : List sparseIndexEntry}
    (htable : s.table = zeroTable ++ real) (hmin : bytesOf s.minKey = [])
    (hhdr : 0 < s.source.headerLen) :
    s.get [] = .ret none (some .decodeFailure) := by
  have hN : 0 < initialTableLen := by decide
  have hlen : s.table.length = initialTableLen + real.length := by
    rw [htable, table_length]
  have h0 : keyAt s.table 0 = [] := by
    unfold keyAt
    rw [htable, table_getD_lt real hN]
  obtain ⟨c, hc, hclt, hcase⟩ := closest_cases s [] (by omega) h0
  have hc0 : c = 0 := by
    by_contra hcon
    rcases hcase with hA | ⟨hB1, _⟩
    · obtain ⟨h1, h2, h3⟩ := sortSearch_spec s.table.length
        (fun i => decide (bytesCompare (keyAt s.table i) [] ≥ 0))
      have hall : ∀ i, bytesCompare (keyAt s.table i) [] ≥ 0 :=
        fun i => bytesCompare_nil_right _
      have hr0 : sortSearch s.table.length
          (fun i => decide (bytesCompare (keyAt s.table i) [] ≥ 0)) = 0 := by
        by_contra hr
        have := h2 (by omega)
        simp only [decide_eq_false_iff_not] at this
        exact this (hall _)
      unfold sparseFileIndex.closest at hc
      rw [hr0] at hc
      have hcond : ¬ (0 = s.table.length ∨ bytesCompare (keyAt s.table 0) [] > 0) := by
        rw [h0]
        intro h
        rcases h with h | h
        · omega
        · simp [bytesCompare] at h
      simp only [hcond, if_false] at hc
      have : (c : Int) = 0 := by exact_mod_cast hc.symm
      omega
    · have := bytesCompare_nil_right (keyAt s.table c)
      omega
  subst hc0
  unfold sparseFileIndex.get
  have hprune : ¬ (bytesCompare [] (bytesOf s.minKey) < 0 ∨
      bytesCompare [] (bytesOf s.maxKey) > 0) := by
    rw [hmin]
    intro h
    rcases h with h | h
    · simp [bytesCompare] at h
    · have := bytesCompare_nil_left (bytesOf s.maxKey)
      omega
  have hrange : (0 : Int) ≤ ((0 : Nat) : Int) ∧ ((0 : Nat) : Int) < (s.table.length : Int) := by
    constructor
    · exact le_refl _
    · exact_mod_cast hclt
  have hoff : (s.table.getD 0 ⟨[], 0⟩).offset = 0 := by
    rw [htable, table_getD_lt real hN]
  simp only [hprune, if_false, hc, hrange, and_self, if_true, Int.toNat_ofNat, hoff]
  unfold getScan
  rw [scan_header hhdr]

/-! ## What `build` and `load` do to the table on any file -/

theorem skipPhase_table (s : sparseFileIndex) (o : Nat) :
    (s.skipPhase o).table = s.table ∧ (s.skipPhase o).indexFile = s.indexFile := by
  unfold sparseFileIndex.skipPhase
  split_ifs
  · cases s.skipAndSync with
    | none =>
      simp only []
      cases s.source.scan o <;> exact ⟨rfl, rfl⟩
    | some q => exact ⟨rfl, rfl⟩
  · exact ⟨rfl, rfl⟩

theorem buildTail_table (s : sparseFileIndex) (incl : Bool) (o : Nat) (key : Bytes) :
    (∃ ext, (buildTail s incl o key).sfi.table = s.table ++ ext) ∧
      (buildTail s incl o key).sfi.indexFile.isSome = s.indexFile.isSome := by
  unfold buildTail
  show (∃ ext, ((if incl = true then s.addEntry o key else s).skipPhase o).table = _) ∧
    ((if incl = true then s.addEntry o key else s).skipPhase o).indexFile.isSome = _
  obtain ⟨h1, h2⟩ := skipPhase_table (if incl = true then s.addEntry o key else s) o
  rw [h1, h2]
  cases incl with
  | true =>
    simp only [if_true, sparseFileIndex.addEntry]
    exact ⟨⟨_, rfl⟩, by cases s.indexFile <;> rfl⟩
  | false =>
    refine ⟨⟨[], ?_⟩, ?_⟩
    · simp
    · simp

theorem buildBody_table (s : sparseFileIndex) :
    (∃ ext, (buildBody s).sfi.table = s.table ++ ext) ∧
      (buildBody s).sfi.indexFile.isSome = s.indexFile.isSome := by
  have hnil : ∀ t : sparseFileIndex, t.table = s.table → t.indexFile = s.indexFile →
      (∃ ext, t.table = s.table ++ ext) ∧ t.indexFile.isSome = s.indexFile.isSome := by
    intro t h1 h2
    exact ⟨⟨[], by rw [h1]; simp⟩, by rw [h2]⟩
  unfold buildBody
  cases hscan : s.source.scan s.pos with
  | eof => exact hnil _ rfl rfl
  | failure => exact hnil _ rfl rfl
  | record r next =>
    simp only []
    cases hmax : s.maxKey with
    | none =>
      have := buildTail_table
        { (if s.minKey = none then
            { s with pos := next, minKey := some r.key }
          else { s with pos := next }) with maxKey := some r.key } true s.pos r.key
      by_cases hmin : s.minKey = none
      · simp only [hmin, if_true] at this ⊢
        exact this
      · simp only [hmin, if_false] at this ⊢
        exact this
    | some mk =>
      by_cases hmin : s.minKey = none
      · simp only [hmin, if_true]
        split_ifs
        · exact hnil _ rfl rfl
        · exact buildTail_table _ _ _ _
        · exact buildTail_table _ _ _ _
      · simp only [hmin, if_false]
        split_ifs
        · exact hnil _ rfl rfl
        · exact buildTail_table _ _ _ _
        · exact buildTail_table _ _ _ _

theorem buildLoop_table (fuel : Nat) (s out : sparseFileIndex) (e : Option Error)
    (h : buildLoop fuel s = some (out, e)) :
    (∃ ext, out.table = s.table ++ ext) ∧ out.indexFile.isSome = s.indexFile.isSome := by
  induction fuel generalizing s with
  | zero => exact Option.noConfusion h
  | succ fuel ih =>
    unfold buildLoop at h
    have hbody := buildBody_table s
    cases hb : buildBody s with
    | next s' =>
      rw [hb] at h hbody
      obtain ⟨⟨ext1, h1⟩, h2⟩ := hbody
      obtain ⟨⟨ext2, h3⟩, h4⟩ := ih s' h
      exact ⟨⟨ext1 ++ ext2, by
        rw [h3]
        show s'.table ++ ext2 = _
        rw [show s'.table = s.table ++ ext1 from h1, List.append_assoc]⟩, h4.trans h2⟩
    | brk s' =>
      rw [hb] at h hbody
      simp only [Option.some.injEq, Prod.mk.injEq] at h
      rw [← h.1]
      exact hbody
    | ret s' e' =>
      rw [hb] at h hbody
      simp only [Option.some.injEq, Prod.mk.injEq] at h
      rw [← h.1]
      exact hbody

/-- Whatever the file, `build` only appends to the table that `newSparseFileIndex` made, and
the file that `cdb.Create` made at the index path is there when `build` returns. -/
theorem build_table (f : SeqFile) (idx : Option (List (Bytes × Nat))) (s : sparseFileIndex)
    (e : Option Error) (h : (newSparseFileIndex f idx).build = some (s, e)) :
    (∃ ext, s.table = zeroTable ++ ext) ∧ s.indexFile.isSome = true := by
  unfold sparseFileIndex.build at h
  exact buildLoop_table _ _ _ _ h

theorem load_table (f : SeqFile) (idx : Option (List (Bytes × Nat))) (m : manifestEntry)
    (iter : List (Bytes × Nat)) :
    ((newSparseFileIndex f idx).load m iter).1.table =
      zeroTable ++ iter.map (fun kv => ⟨kv.1, kv.2⟩) := rfl

/-- With the zero entries at the head of the table, `closest` is an index of the table. -/
theorem closest_in_range (s : sparseFileIndex) (ext : List sparseIndexEntry) (key : Bytes)
    (htable : s.table = zeroTable ++ ext) :
    0 ≤ s.closest key ∧ s.closest key < s.table.length := by
  have hN : 0 < initialTableLen := by decide
  have hlen : s.table.length = initialTableLen + ext.length := by
    rw [htable, table_length]
  have h0 : keyAt s.table 0 = [] := by
    unfold keyAt
    rw [htable, table_getD_lt ext hN]
  obtain ⟨c, hc, hclt, _⟩ := closest_cases s key (by omega) h0
  rw [hc]
  exact ⟨Int.ofNat_nonneg _, by exact_mod_cast hclt⟩

/-- `get` reads the bounds, the table and the source file, nothing else of the index. -/
theorem get_congr {s1 s2 : sparseFileIndex} (h1 : s1.minKey = s2.minKey)
    (h2 : s1.maxKey = s2.maxKey) (h3 : s1.table = s2.table) (h4 : s1.source = s2.source)
    (key : Bytes) : s1.get key = s2.get key := by
  unfold sparseFileIndex.get sparseFileIndex.closest
  rw [h1, h2, h3, h4]

/-- A sorted file builds without error. -/
theorem build_sorted {f : SeqFile} (hwf : f.WellFormed) (hs : f.Sorted)
    (idx : Option (List (Bytes × Nat))) :
    ∃ s real, (newSparseFileIndex f idx).build = some (s, none) ∧ Built f s real := by
  obtain ⟨s', e, hb, _, _, hcase⟩ := build_spec hwf idx
  rcases hcase with ⟨he, real, hreal⟩ | ⟨_, a, b, hab, hbn, hcmp⟩
  · subst he
    exact ⟨s', real, hb, hreal⟩
  · have := sorted_recAt hs (le_of_lt hab) hbn
    rw [bytesCompare_swap] at hcmp
    omega

theorem recAt_inj_of_strict {f : SeqFile} (hs : f.StrictSorted) {a b : Nat}
    (ha : a < f.records.length) (hb : b < f.records.length)
    (h : (f.recAt a).key = (f.recAt b).key) : a = b := by
  rcases Nat.lt_trichotomy a b with hlt | heq | hgt
  · have := strictSorted_recAt hs hlt hb
    rw [h, bytesCompare_self] at this
    omega
  · exact heq
  · have := strictSorted_recAt hs hgt ha
    rw [h, bytesCompare_self] at this
    omega

/-- Round trip of `build` then `get`, for the records of non-empty key: on a file sorted by
key, no two records sharing a key, of any size, `get` returns the value of the record. -/
theorem get_build_round_trip {f : SeqFile} (hwf : f.WellFormed) (hs : f.StrictSorted)
    {idx : Option (List (Bytes × Nat))} {s : sparseFileIndex}
    (hb : (newSparseFileIndex f idx).build = some (s, none)) (r : Record)
    (hr : r ∈ f.records) (hk : r.key ≠ []) : s.get r.key = .ret (some r.value) none := by
  obtain ⟨real, hbuilt⟩ := build_ok hwf hb
  obtain ⟨t, ht, hrt⟩ := exists_recAt_of_mem hr
  have hkey : (f.recAt t).key = r.key := by rw [hrt]
  have hfirst : ∀ u, u < t → (f.recAt u).key ≠ r.key := by
    intro u hu hcon
    have := recAt_inj_of_strict hs (by omega) ht (hcon.trans hkey.symm)
    omega
  rcases get_found_of_built hwf (StrictSorted.sorted hs) hbuilt r.key hk t ht hkey hfirst with
    ⟨j, hj, _, hjk, hget⟩ | ⟨_, hget⟩
  · have hjt : j = t := recAt_inj_of_strict hs hj ht (hjk.trans hkey.symm)
    rw [hget, hjt, hrt]
  · rw [hget, hrt]

/-- Absence, the empty key on a file without records apart: after a successful `build`,
`get` of a key that no record has returns an absent value and a nil error. -/
theorem get_build_absent {f : SeqFile} (hwf : f.WellFormed)
    {idx : Option (List (Bytes × Nat))} {s : sparseFileIndex}
    (hb : (newSparseFileIndex f idx).build = some (s, none)) (key : Bytes)
    (habs : ∀ r ∈ f.records, r.key ≠ key) (hne : f.records ≠ [] ∨ key ≠ []) :
    s.get key = .ret none none := by
  obtain ⟨real, hbuilt⟩ := build_ok hwf hb
  exact get_absent_of_built hwf hbuilt key habs hne

/-- Behind the zero entries, the table of a successful `build` is strictly increasing in key
and in offset, and it starts with the entry of the first record. -/
theorem build_table_tail {f : SeqFile} (hwf : f.WellFormed)
    {idx : Option (List (Bytes × Nat))} {s : sparseFileIndex}
    (hb : (newSparseFileIndex f idx).build = some (s, none)) :
    TableStrict (s.table.drop initialTableLen) ∧
      (0 < f.records.length →
        ((s.table.drop initialTableLen).head?.map (fun e => e.key)) = s.minKey) := by
  obtain ⟨real, hbuilt⟩ := build_ok hwf hb
  have hdrop : s.table.drop initialTableLen = real := by
    rw [hbuilt.table, ← zeroTable_length, List.drop_left]
  rw [hdrop]
  constructor
  · unfold TableStrict
    exact List.Pairwise.and hbuilt.sortedKeys hbuilt.sortedOffsets
  · intro hn
    rw [hbuilt.head hn, hbuilt.minKey hn]
    rfl

/-! ## Further facts for the claims -/

/-- When every entry behind the zero entries has a key at or above the target and the first
of them lies above it, the search stops at that first entry and backs up onto a zero entry,
whose offset 0 lies inside the header. -/
theorem get_backs_onto_zero {s : sparseFileIndex} {real : List sparseIndexEntry} {key : Bytes}
    (htable : s.table = zeroTable ++ real) (hk : key ≠ [])
    (hall : ∀ e ∈ real, bytesCompare e.key key ≥ 0) (e0 : sparseIndexEntry)
    (hhead : real.head? = some e0) (hgt : bytesCompare e0.key key > 0)
    (hmin : ¬ bytesCompare key (bytesOf s.minKey) < 0)
    (hmax : ¬ bytesCompare key (bytesOf s.maxKey) > 0) (hhdr : 0 < s.source.headerLen) :
    s.get key = .ret none (some .decodeFailure) := by
  have hN : 0 < initialTableLen := by decide
  have hreal : 0 < real.length := by
    cases real with
    | nil => simp at hhead
    | cons a as => simp
  have hlen : s.table.length = initialTableLen + real.length := by
    rw [htable, table_length]
  have hkey0 : ∀ i, i < initialTableLen → keyAt s.table i = [] := by
    intro i hi
    unfold keyAt
    rw [htable, table_getD_lt real hi]
  have hkeyN : ∀ m, m < real.length → keyAt s.table (initialTableLen + m) = (real[m]?.getD ⟨[], 0⟩).key := by
    intro m _
    unfold keyAt
    rw [htable, table_getD_ge, List.getD_eq_getElem?_getD]
  have hreal0 : real[0]? = some e0 := by
    rw [← List.head?_eq_getElem?]; exact hhead
  obtain ⟨h1, h2, h3⟩ := sortSearch_spec s.table.length
    (fun i => decide (bytesCompare (keyAt s.table i) key ≥ 0))
  have hr : sortSearch s.table.length
      (fun i => decide (bytesCompare (keyAt s.table i) key ≥ 0)) = initialTableLen := by
    generalize sortSearch s.table.length
      (fun i => decide (bytesCompare (keyAt s.table i) key ≥ 0)) = r at h1 h2 h3
    simp only [decide_eq_false_iff_not, decide_eq_true_eq] at h2 h3
    rcases Nat.lt_trichotomy r initialTableLen with hlt | heq | hgt'
    · have := h3 (by omega)
      rw [hkey0 r hlt] at this
      have := bytesCompare_nil_lt hk
      omega
    · exact heq
    · exfalso
      have hm : r - 1 = initialTableLen + (r - 1 - initialTableLen) := by omega
      have hml : r - 1 - initialTableLen < real.length := by omega
      have := h2 (by omega)
      rw [hm, hkeyN _ hml, List.getElem?_eq_getElem hml] at this
      exact this (hall _ (List.getElem_mem _))
  have hkN : keyAt s.table initialTableLen = e0.key := by
    have := hkeyN 0 hreal
    rw [hreal0] at this
    exact this
  have hc : s.closest key = (initialTableLen : Int) - 1 := by
    unfold sparseFileIndex.closest
    rw [hr]
    have : initialTableLen = s.table.length ∨ bytesCompare (keyAt s.table initialTableLen) key > 0 :=
      Or.inr (by rw [hkN]; exact hgt)
    simp only [this, if_true]
  unfold sparseFileIndex.get
  have hprune : ¬ (bytesCompare key (bytesOf s.minKey) < 0 ∨
      bytesCompare key (bytesOf s.maxKey) > 0) := by
    intro h
    rcases h with h | h
    · exact hmin h
    · exact hmax h
  have hrange : (0 : Int) ≤ (initialTableLen : Int) - 1 ∧
      (initialTableLen : Int) - 1 < (s.table.length : Int) := by
    rw [hlen]
    constructor <;> omega
  have htn : ((initialTableLen : Int) - 1).toNat = initialTableLen - 1 := by omega
  have hoff : (s.table.getD (initialTableLen - 1) ⟨[], 0⟩).offset = 0 := by
    rw [htable, table_getD_lt real (by omega)]
  simp only [hprune, if_false, hc, hrange, and_self, if_true, htn, hoff]
  unfold getScan
  rw [scan_header hhdr]

theorem filter_key_length_le_one {l : List sparseIndexEntry} {k : Bytes}
    (h : l.Pairwise (fun a b => bytesCompare a.key b.key < 0)) :
    (l.filter (fun e => decide (e.key = k))).length ≤ 1 := by
  induction l with
  | nil => simp
  | cons a l ih =>
    rw [List.pairwise_cons] at h
    by_cases hak : a.key = k
    · have hnil : l.filter (fun e => decide (e.key = k)) = [] := by
        rw [List.filter_eq_nil_iff]
        intro b hb
        simp only [decide_eq_true_eq]
        intro hbk
        have := h.1 b hb
        rw [hak, hbk, bytesCompare_self] at this
        omega
      simp [List.filter_cons, hak, hnil]
    · simp only [List.filter_cons, hak, decide_False, Bool.false_eq_true, if_false]
      exact ih h.2

theorem entry_unique {l : List sparseIndexEntry}
    (h : l.Pairwise (fun a b => bytesCompare a.key b.key < 0)) {x y : sparseIndexEntry}
    (hx : x ∈ l) (hy : y ∈ l) (hxy : x.key = y.key) : x = y := by
  obtain ⟨a, ha, hxa⟩ := List.getElem_of_mem hx
  obtain ⟨b, hb, hyb⟩ := List.getElem_of_mem hy
  have hpw := List.pairwise_iff_getElem.mp h
  rcases Nat.lt_trichotomy a b with hlt | heq | hgt
  · have := hpw a b ha hb hlt
    rw [hxa, hyb, hxy, bytesCompare_self] at this
    omega
  · subst heq
    rw [← hxa, ← hyb]
  · have := hpw b a hb ha hgt
    rw [hxa, hyb, hxy, bytesCompare_self] at this
    omega

theorem mem_table_of_key {real : List sparseIndexEntry} {e : sparseIndexEntry}
    (he : e ∈ zeroTable ++ real) (hk : e.key ≠ []) : e ∈ real := by
  rcases List.mem_append.mp he with h | h
  · exfalso
    unfold zeroTable at h
    rw [List.mem_replicate] at h
    exact hk (by rw [h.2])
  · exact h

theorem offset_inj {f : SeqFile} (hwf : f.WellFormed) {a b : Nat}
    (ha : a < f.records.length) (hb : b < f.records.length)
    (h : f.offset a = f.offset b) : a = b := by
  rcases Nat.lt_trichotomy a b with hlt | heq | hgt
  · have := offset_lt hwf hlt ha
    omega
  · exact heq
  · have := offset_lt hwf hgt hb
    omega

/-- In a file `pre ++ run ++ post`, the records of key `k` are those of the run when the run
has key `k` and no record before or after it has. -/
theorem run_range {f : SeqFile} {pre run post : List Record} {k : Bytes}
    (hrec : f.records = pre ++ run ++ post) (hpre : ∀ r ∈ pre, r.key ≠ k)
    (hpost : ∀ r ∈ post, r.key ≠ k) {j : Nat} (hj : j < f.records.length)
    (hjk : (f.recAt j).key = k) : pre.length ≤ j ∧ j < pre.length + run.length := by
  have hget := recAt_of_lt hj
  rw [hrec] at hget
  constructor
  · by_contra hcon
    have hlt : j < pre.length := by omega
    rw [List.append_assoc, List.getElem?_append_left hlt] at hget
    exact hpre _ (List.getElem?_mem hget) hjk
  · by_contra hcon
    have hge : (pre ++ run).length ≤ j := by simp; omega
    rw [List.getElem?_append_right hge] at hget
    exact hpost _ (List.getElem?_mem hget) hjk

theorem run_key {f : SeqFile} {pre run post : List Record} {k : Bytes}
    (hrec : f.records = pre ++ run ++ post) (hk : ∀ r ∈ run, r.key = k) {j : Nat}
    (h1 : pre.length ≤ j) (h2 : j < pre.length + run.length) :
    j < f.records.length ∧ (f.recAt j).key = k := by
  have hj : j < f.records.length := by rw [hrec]; simp; omega
  refine ⟨hj, ?_⟩
  have hget := recAt_of_lt hj
  rw [hrec, List.append_assoc, List.getElem?_append_right h1,
    List.getElem?_append_left (by omega)] at hget
  exact hk _ (List.getElem?_mem hget)

/-! ## The records that `build` reads -/

theorem skipPhase_maxKey (s : sparseFileIndex) (o : Nat) :
    (s.skipPhase o).maxKey = s.maxKey := by
  unfold sparseFileIndex.skipPhase
  split_ifs
  · cases s.skipAndSync with
    | none =>
      simp only []
      cases s.source.scan o <;> rfl
    | some q => rfl
  · rfl

theorem skipPhase_source (s : sparseFileIndex) (o : Nat) :
    (s.skipPhase o).source = s.source := by
  unfold sparseFileIndex.skipPhase
  split_ifs
  · cases s.skipAndSync with
    | none =>
      simp only []
      cases s.source.scan o <;> rfl
    | some q => rfl
  · rfl

theorem buildTail_source (s : sparseFileIndex) (incl : Bool) (o : Nat) (key : Bytes) :
    (buildTail s incl o key).sfi.source = s.source := by
  unfold buildTail
  show ((if incl = true then s.addEntry o key else s).skipPhase o).source = _
  rw [skipPhase_source]
  cases incl <;> rfl

theorem buildBody_source (s : sparseFileIndex) : (buildBody s).sfi.source = s.source := by
  unfold buildBody
  cases hscan : s.source.scan s.pos with
  | eof => rfl
  | failure => rfl
  | record r next =>
    simp only []
    cases hmax : s.maxKey with
    | none =>
      by_cases hmin : s.minKey = none
      · simp only [hmin, if_true]
        exact buildTail_source _ _ _ _
      · simp only [hmin, if_false]
        exact buildTail_source _ _ _ _
    | some mk =>
      by_cases hmin : s.minKey = none
      · simp only [hmin, if_true]
        split_ifs
        · rfl
        · exact buildTail_source _ _ _ _
        · exact buildTail_source _ _ _ _
      · simp only [hmin, if_false]
        split_ifs
        · rfl
        · exact buildTail_source _ _ _ _
        · exact buildTail_source _ _ _ _

theorem buildTail_facts (s : sparseFileIndex) (incl : Bool) (o : Nat) (key : Bytes) :
    ∃ s1, buildTail s incl o key = .next s1 ∧ s1.maxKey = s.maxKey ∧
      (incl = true → (⟨key, o⟩ : sparseIndexEntry) ∈ s1.table) ∧
      (∀ e ∈ s1.table, e ∈ s.table ∨ e.offset = o) := by
  refine ⟨_, rfl, ?_, ?_, ?_⟩
  · rw [skipPhase_maxKey]
    cases incl <;> rfl
  · intro h
    rw [(skipPhase_table _ _).1, h]
    exact List.mem_append_right _ (List.mem_singleton_self _)
  · intro e he
    rw [(skipPhase_table _ _).1] at he
    cases incl with
    | false => exact Or.inl he
    | true =>
      rcases List.mem_append.mp he with h | h
      · exact Or.inl h
      · right
        rw [List.mem_singleton.mp h]

/-- One pass through the loop body at a position where the scanner yields a record: the pass
goes on, with the key of the record as `maxKey`, or returns `errNotSorted`. -/
theorem buildBody_record {s : sparseFileIndex} {r : Record} {nx : Nat}
    (hscan : s.source.scan s.pos = .record r nx) :
    (∃ s1, buildBody s = .next s1 ∧ s1.maxKey = some r.key ∧
        ((∀ mk, s.maxKey = some mk → bytesCompare mk r.key < 0) →
          (⟨r.key, s.pos⟩ : sparseIndexEntry) ∈ s1.table) ∧
        (∀ e ∈ s1.table, e ∈ s.table ∨ e.offset = s.pos)) ∨
      (∃ s1, buildBody s = .ret s1 (some .errNotSorted) ∧ s1.table = s.table) := by
  unfold buildBody
  simp only [hscan]
  cases hmax : s.maxKey with
  | none =>
    left
    obtain ⟨s1, h1, h2, h3, h4⟩ := buildTail_facts
      { (if s.minKey = none then
          { s with pos := nx, minKey := some r.key }
        else { s with pos := nx }) with maxKey := some r.key } true s.pos r.key
    refine ⟨s1, ?_, h2, fun _ => h3 rfl, ?_⟩
    · rw [← h1]
      by_cases hmin : s.minKey = none <;> simp only [hmin, if_true, if_false]
    · intro e he
      rcases h4 e he with h | h
      · left
        by_cases hmin : s.minKey = none
        · simp only [hmin, if_true] at h; exact h
        · simp only [hmin, if_false] at h; exact h
      · exact Or.inr h
  | some mk =>
    by_cases hlt : bytesCompare r.key mk < 0
    · right
      by_cases hmin : s.minKey = none <;> simp only [hmin, hlt, if_true, if_false] <;>
        exact ⟨_, rfl, rfl⟩
    · left
      by_cases heq : bytesCompare r.key mk = 0
      · have hk : mk = r.key := (bytesCompare_eq_zero.mp heq).symm
        obtain ⟨s1, h1, h2, _, h4⟩ := buildTail_facts
          (if s.minKey = none then
            { s with pos := nx, minKey := some r.key, maxKey := some mk }
          else { s with pos := nx, maxKey := some mk }) false s.pos r.key
        refine ⟨s1, ?_, ?_, ?_, ?_⟩
        · rw [← h1]
          by_cases hmin : s.minKey = none <;>
            simp only [hmin, hlt, heq, if_true, if_false, lt_self_iff_false]
        · rw [h2, ← hk]
          by_cases hmin : s.minKey = none <;> simp only [hmin, if_true, if_false]
        · intro hcon
          have := hcon mk rfl
          rw [hk, bytesCompare_self] at this
          omega
        · intro e he
          rcases h4 e he with h | h
          · left
            by_cases hmin : s.minKey = none
            · simp only [hmin, if_true] at h; exact h
            · simp only [hmin, if_false] at h; exact h
          · exact Or.inr h
      · obtain ⟨s1, h1, h2, h3, h4⟩ := buildTail_facts
          (if s.minKey = none then
            { s with pos := nx, minKey := some r.key, maxKey := some r.key }
          else { s with pos := nx, maxKey := some r.key }) true s.pos r.key
        refine ⟨s1, ?_, ?_, fun _ => h3 rfl, ?_⟩
        · rw [← h1]
          by_cases hmin : s.minKey = none <;>
            simp only [hmin, hlt, heq, if_true, if_false, lt_self_iff_false]
        · rw [h2]
          by_cases hmin : s.minKey = none <;> simp only [hmin, if_true, if_false]
        · intro e he
          rcases h4 e he with h | h
          · left
            by_cases hmin : s.minKey = none
            · simp only [hmin, if_true] at h; exact h
            · simp only [hmin, if_false] at h; exact h
          · exact Or.inr h

theorem buildBody_no_record {s : sparseFileIndex}
    (h : ∀ r nx, s.source.scan s.pos ≠ .record r nx) :
    ∃ s1, buildBody s = .brk s1 ∧ s1.table = s.table := by
  unfold buildBody
  cases hscan : s.source.scan s.pos with
  | eof => exact ⟨_, rfl, rfl⟩
  | failure => exact ⟨_, rfl, rfl⟩
  | record r nx => exact absurd hscan (h r nx)

/-- A record that `build` reads gets an entry in the table when every record read before it
has a smaller key. -/
theorem readLoop_entry (fuel : Nat) (s s' : sparseFileIndex) (A B : List Nat) (o : Nat)
    (r : Record) (nx : Nat) (hb : buildLoop fuel s = some (s', none))
    (htrace : readLoop fuel s = A ++ o :: B)
    (hscan : s.source.scan o = .record r nx)
    (hmax : ∀ mk, s.maxKey = some mk → bytesCompare mk r.key < 0)
    (hA : ∀ o' ∈ A, ∀ r' nx', s.source.scan o' = .record r' nx' →
      bytesCompare r'.key r.key < 0) :
    (⟨r.key, o⟩ : sparseIndexEntry) ∈ s'.table := by
  induction fuel generalizing s A with
  | zero => exact Option.noConfusion hb
  | succ fuel ih =>
    unfold buildLoop at hb
    unfold readLoop at htrace
    have hsfi := buildBody_table s
    cases hscan0 : s.source.scan s.pos with
    | record r0 nx0 =>
      rcases buildBody_record hscan0 with ⟨s1, h1, h2, h3, _⟩ | ⟨s1, h1, _⟩
      · rw [h1] at hb htrace hsfi
        simp only [] at hb htrace
        have hsrc1 : s1.source = s.source := by
          have := buildBody_source s
          rw [h1] at this
          exact this
        cases A with
        | nil =>
          simp only [List.nil_append, List.cons.injEq] at htrace
          obtain ⟨ho, _⟩ := htrace
          rw [← ho] at hscan
          rw [hscan0] at hscan
          simp only [ScanResult.record.injEq] at hscan
          rw [← hscan.1, ← ho]
          rw [← hscan.1] at hmax
          obtain ⟨⟨ext, hext⟩, _⟩ := buildLoop_table fuel s1 s' none hb
          rw [hext]
          exact List.mem_append_left _ (h3 hmax)
        | cons a A' =>
          simp only [List.cons_append, List.cons.injEq] at htrace
          obtain ⟨ha, htr⟩ := htrace
          refine ih s1 A' hb htr (by rw [hsrc1]; exact hscan) ?_ ?_
          · intro mk hmk
            rw [h2] at hmk
            rw [← Option.some.inj hmk]
            exact hA a (List.mem_cons_self _ _) r0 nx0 (by rw [← ha]; exact hscan0)
          · intro o' ho' r' nx' hs'
            rw [hsrc1] at hs'
            exact hA o' (List.mem_cons_of_mem _ ho') r' nx' hs'
      · rw [h1] at hb
        simp only [Option.some.injEq, Prod.mk.injEq] at hb
        exact absurd hb.2 (by simp)
    | eof =>
      obtain ⟨s1, h1, _⟩ := buildBody_no_record (s := s) (by
        intro r nx h; rw [hscan0] at h; exact ScanResult.noConfusion h)
      rw [h1] at htrace
      simp only [] at htrace
      exact absurd htrace (by simp)
    | failure =>
      obtain ⟨s1, h1, _⟩ := buildBody_no_record (s := s) (by
        intro r nx h; rw [hscan0] at h; exact ScanResult.noConfusion h)
      rw [h1] at htrace
      simp only [] at htrace
      exact absurd htrace (by simp)

/-- Every entry that `build` adds to the table has the offset of a record that it read. -/
theorem readLoop_covers (fuel : Nat) (s s' : sparseFileIndex) (e : Option Error)
    (hb : buildLoop fuel s = some (s', e)) :
    ∀ x ∈ s'.table, x ∈ s.table ∨ x.offset ∈ readLoop fuel s := by
  induction fuel generalizing s with
  | zero => exact Option.noConfusion hb
  | succ fuel ih =>
    unfold buildLoop at hb
    unfold readLoop
    cases hscan0 : s.source.scan s.pos with
    | record r0 nx0 =>
      rcases buildBody_record hscan0 with ⟨s1, h1, _, _, h4⟩ | ⟨s1, h1, h2⟩
      · rw [h1] at hb ⊢
        simp only [] at hb ⊢
        intro x hx
        rcases ih s1 hb x hx with h | h
        · rcases h4 x h with h' | h'
          · exact Or.inl h'
          · right
            rw [h']
            exact List.mem_cons_self _ _
        · exact Or.inr (List.mem_cons_of_mem _ h)
      · rw [h1] at hb
        simp only [Option.some.injEq, Prod.mk.injEq] at hb
        intro x hx
        rw [← hb.1, h2] at hx
        exact Or.inl hx
    | eof =>
      obtain ⟨s1, h1, h2⟩ := buildBody_no_record (s := s) (by
        intro r nx h; rw [hscan0] at h; exact ScanResult.noConfusion h)
      rw [h1] at hb
      simp only [Option.some.injEq, Prod.mk.injEq] at hb
      intro x hx
      rw [← hb.1, h2] at hx
      exact Or.inl hx
    | failure =>
      obtain ⟨s1, h1, h2⟩ := buildBody_no_record (s := s) (by
        intro r nx h; rw [hscan0] at h; exact ScanResult.noConfusion h)
      rw [h1] at hb
      simp only [Option.some.injEq, Prod.mk.injEq] at hb
      intro x hx
      rw [← hb.1, h2] at hx
      exact Or.inl hx

/-- The offsets that `build` reads are starts of records, in increasing order. -/
theorem readLoop_sorted {f : SeqFile} (hwf : f.WellFormed) (fuel : Nat) {s : sparseFileIndex}
    {i : Nat} (inv : LoopInv f s i) :
    (∀ o ∈ readLoop fuel s, ∃ j, i ≤ j ∧ j < f.records.length ∧ o = f.offset j) ∧
      (readLoop fuel s).Pairwise (fun a b => a < b) := by
  induction fuel generalizing s i with
  | zero => exact ⟨by intro o ho; simp [readLoop] at ho, by simp [readLoop]⟩
  | succ fuel ih =>
    unfold readLoop
    by_cases hi : i < f.records.length
    · rcases buildBody_step hwf inv hi with ⟨s', i', hb, hii, hinv⟩ | ⟨s', l, hb, _⟩
      · rw [hb]
        simp only []
        obtain ⟨h1, h2⟩ := ih hinv
        constructor
        · intro o ho
          rcases List.mem_cons.mp ho with h | h
          · exact ⟨i, le_refl _, hi, by rw [h, inv.pos]⟩
          · obtain ⟨j, hj1, hj2, hj3⟩ := h1 o h
            exact ⟨j, by omega, hj2, hj3⟩
        · rw [List.pairwise_cons]
          refine ⟨?_, h2⟩
          intro o ho
          obtain ⟨j, hj1, hj2, hj3⟩ := h1 o ho
          rw [hj3, inv.pos]
          exact offset_lt hwf (by omega) hi
      · rw [hb]
        simp only []
        constructor
        · intro o ho
          exact ⟨i, le_refl _, hi, by rw [List.mem_singleton.mp ho, inv.pos]⟩
        · exact List.pairwise_singleton _ _
    · rw [buildBody_end hwf inv.source inv.pos (by omega)]
      simp only []
      exact ⟨by intro o ho; simp at ho, List.Pairwise.nil⟩

theorem exists_first_split {α : Type} (p : α → Prop) (l : List α) (h : ∃ x ∈ l, p x) :
    ∃ A o B, l = A ++ o :: B ∧ p o ∧ ∀ a ∈ A, ¬ p a := by
  induction l with
  | nil =>
    obtain ⟨x, hx, _⟩ := h
    simp at hx
  | cons y ys ih =>
    by_cases hy : p y
    · exact ⟨[], y, ys, rfl, hy, by intro a ha; simp at ha⟩
    · obtain ⟨x, hx, hpx⟩ := h
      have hx' : x ∈ ys := by
        rcases List.mem_cons.mp hx with h' | h'
        · rw [h'] at hpx; exact absurd hpx hy
        · exact h'
      obtain ⟨A, o, B, hl, ho, hA⟩ := ih ⟨x, hx', hpx⟩
      refine ⟨y :: A, o, B, by rw [hl]; rfl, ho, ?_⟩
      intro a ha
      rcases List.mem_cons.mp ha with h' | h'
      · rw [h']; exact hy
      · exact hA a h'

/-- The opened index with which `build` and `readOffsets` enter the loop. -/
theorem build_eq_loop (f : SeqFile) (idx : Option (List (Bytes × Nat))) :
    (newSparseFileIndex f idx).build =
        buildLoop (f.records.length + 1)
          { (newSparseFileIndex f idx).open with indexFile := some [] } ∧
      (newSparseFileIndex f idx).readOffsets =
        readLoop (f.records.length + 1)
          { (newSparseFileIndex f idx).open with indexFile := some [] } :=
  ⟨rfl, rfl⟩

/-- After a successful `build`, a record that `build` read has an entry in the table when
every record read before it has a smaller key. -/
theorem reads_entry (f : SeqFile) (idx : Option (List (Bytes × Nat))) (s : sparseFileIndex)
    (A B : List Nat) (o : Nat) (r : Record) (nx : Nat)
    (hb : (newSparseFileIndex f idx).build = some (s, none))
    (htrace : (newSparseFileIndex f idx).readOffsets = A ++ o :: B)
    (hscan : f.scan o = .record r nx)
    (hA : ∀ o' ∈ A, ∀ r' nx', f.scan o' = .record r' nx' → bytesCompare r'.key r.key < 0) :
    (⟨r.key, o⟩ : sparseIndexEntry) ∈ s.table := by
  rw [(build_eq_loop f idx).1] at hb
  rw [(build_eq_loop f idx).2] at htrace
  exact readLoop_entry _ _ s A B o r nx hb htrace hscan
    (by intro mk hmk; exact Option.noConfusion hmk) hA

/-- Every entry of the table behind the zero entries has the offset of a record that `build`
read. -/
theorem table_entry_read (f : SeqFile) (idx : Option (List (Bytes × Nat)))
    (s : sparseFileIndex) (e : Option Error)
    (hb : (newSparseFileIndex f idx).build = some (s, e)) :
    ∀ x ∈ s.table, x ∈ zeroTable ∨ x.offset ∈ (newSparseFileIndex f idx).readOffsets := by
  rw [(build_eq_loop f idx).1] at hb
  rw [(build_eq_loop f idx).2]
  exact readLoop_covers _ _ s e hb

/-- The offsets that `build` reads are starts of records of the file, in increasing order. -/
theorem reads_sorted {f : SeqFile} (hwf : f.WellFormed) (idx : Option (List (Bytes × Nat))) :
    (∀ o ∈ (newSparseFileIndex f idx).readOffsets,
        ∃ j, j < f.records.length ∧ o = f.offset j) ∧
      ((newSparseFileIndex f idx).readOffsets).Pairwise (fun a b => a < b) := by
  rw [(build_eq_loop f idx).2]
  have inv : LoopInv f
      { (newSparseFileIndex f idx).open with indexFile := some [] } 0 :=
    LoopInv.fresh rfl rfl rfl (by
      show f.headerLen = f.offset 0
      unfold SeqFile.offset
      rw [offsetFrom_zero]) rfl rfl rfl rfl
  obtain ⟨h1, h2⟩ := readLoop_sorted hwf (f.records.length + 1) inv
  refine ⟨?_, h2⟩
  intro o ho
  obtain ⟨j, _, hj, hoj⟩ := h1 o ho
  exact ⟨j, hj, hoj⟩

/-! ## The claims -/

/-- C1, at the failing input: `fileEmptyKey` is sorted with no two records sharing a key, and
its first record has the empty key; `build` returns no error, and `get` of the empty key
returns no value and a decode error instead of the value of that record. The binary search
stops at the first of the zero entries that `newSparseFileIndex` put into the table, and their
offset 0 lies in the header of the file. -/
theorem C1_empty_key_lookup_fails :
    fileEmptyKey.WellFormed ∧ fileEmptyKey.StrictSorted ∧
      (⟨[], [49], 10, false⟩ : Record) ∈ fileEmptyKey.records ∧
      ∃ s, (newSparseFileIndex fileEmptyKey none).build = some (s, none) ∧
        s.get [] = .ret none (some .decodeFailure) := by
  refine ⟨by decide, by decide, by decide, ?_⟩
  obtain ⟨s, real, hb, hbuilt⟩ :=
    build_sorted (f := fileEmptyKey) (by decide) (by decide) none
  refine ⟨s, hb, get_empty_key hbuilt.table ?_ ?_⟩
  · rw [hbuilt.minKey (by decide)]; rfl
  · rw [hbuilt.source]; decide

/-- C2, at the failing input: in `fileSkipUnsorted`, keys `a c b d`, the record of key `b`
comes after the record of key `c`; `build` reads the records at offsets 10, 100010 and 200020
only, jumping over the record of key `b` at 100020, and returns no error instead of
`errNotSorted`. -/
theorem C2_skipped_record_not_detected :
    fileSkipUnsorted.WellFormed ∧
      (∃ a b, a < b ∧ b < fileSkipUnsorted.records.length ∧
        bytesCompare (fileSkipUnsorted.recAt b).key (fileSkipUnsorted.recAt a).key < 0) ∧
      fileSkipUnsorted.offset 2 = 100020 ∧
      (newSparseFileIndex fileSkipUnsorted none).readOffsets = [10, 100010, 200020] ∧
      (newSparseFileIndex fileSkipUnsorted none).build.map Prod.snd = some none :=
  ⟨by decide, ⟨1, 2, by decide, by decide, by decide⟩, by decide, by decide, by decide⟩

/-- What `build` does detect in the part of the file it reads record by record: when a record
has a key smaller than the key of an earlier record and the record before it starts at an
offset of at most `skipSize`, `build` returns `errNotSorted`. -/
theorem build_detects_unsorted_prefix (f : SeqFile) (idx : Option (List (Bytes × Nat)))
    (a b : Nat) (hwf : f.WellFormed) (hab : a < b) (hb : b < f.records.length)
    (hcmp : bytesCompare (f.recAt b).key (f.recAt a).key < 0)
    (hdense : f.offset (b - 1) ≤ skipSize) :
    (newSparseFileIndex f idx).build.map Prod.snd = some (some .errNotSorted) := by
  obtain ⟨s', e, hbuild, _, _, hcase⟩ := build_spec hwf idx
  rw [hbuild]
  rcases hcase with ⟨_, real, hreal⟩ | ⟨he, _⟩
  · exfalso
    have := hreal.denseSorted a b hab hb hdense
    rw [bytesCompare_swap] at hcmp
    omega
  · rw [he]; rfl

/-- C3: when `build` returns no error on a file with at least one record, `minKey` is the key
of the first record and `maxKey` is the key of the last record, whether or not `build`
skipped parts of the file. -/
theorem C3_bounds_truth (f : SeqFile) (idx : Option (List (Bytes × Nat)))
    (s : sparseFileIndex) (first last : Record) (hwf : f.WellFormed)
    (hb : (newSparseFileIndex f idx).build = some (s, none))
    (hfirst : f.records.head? = some first) (hlast : f.records.getLast? = some last) :
    s.minKey = some first.key ∧ s.maxKey = some last.key := by
  obtain ⟨real, hbuilt⟩ := build_ok hwf hb
  have hn : 0 < f.records.length := by
    cases hrec : f.records with
    | nil => rw [hrec] at hfirst; simp at hfirst
    | cons a as => simp
  have h0 := recAt_of_lt hn
  rw [← List.head?_eq_getElem?, hfirst] at h0
  have hl := recAt_of_lt (show f.records.length - 1 < f.records.length by omega)
  rw [← List.getLast?_eq_getElem?, hlast] at hl
  rw [hbuilt.minKey hn, hbuilt.maxKey hn, ← Option.some.inj h0, ← Option.some.inj hl]
  exact ⟨rfl, rfl⟩

/-- C3 on `fileSkipRun`, where `build` jumps with `skipAndSync`, hits the end of the file on
the next jump and rewinds to the last checkpoint. -/
theorem C3_bounds_truth_witness :
    fileSkipRun.WellFormed ∧
      (newSparseFileIndex fileSkipRun none).build = some (builtSkipRun, none) ∧
      fileSkipRun.records.head? = some ⟨[97], [49], 100000, false⟩ ∧
      fileSkipRun.records.getLast? = some ⟨[99], [52], 10, true⟩ ∧
      builtSkipRun.minKey = some [97] ∧ builtSkipRun.maxKey = some [99] :=
  ⟨by decide, rfl, rfl, rfl,
    C3_bounds_truth fileSkipRun none builtSkipRun ⟨[97], [49], 100000, false⟩
      ⟨[99], [52], 10, true⟩ (by decide) rfl rfl rfl⟩

/-- C4, at the failing input: on `fileEmpty`, a header and no records, `build` returns no
error and leaves `minKey` and `maxKey` unset; the empty key, which no record has, passes the
bounds check of `get`, and `get` returns a decode error instead of a nil error: it reads the
file from offset 0 of the first zero entry of the table, inside the header. -/
theorem C4_empty_key_on_empty_file :
    fileEmpty.WellFormed ∧ fileEmpty.Sorted ∧ (∀ r ∈ fileEmpty.records, r.key ≠ []) ∧
      ∃ s, (newSparseFileIndex fileEmpty none).build = some (s, none) ∧
        s.minKey = none ∧ s.maxKey = none ∧
        s.get [] = .ret none (some .decodeFailure) := by
  refine ⟨by decide, by decide, by decide, builtEmpty, rfl, rfl, rfl, ?_⟩
  exact @get_empty_key builtEmpty [] (by simp [builtEmpty]) rfl (by decide)

/-- C5, counterexample: `build` on `fileTwo` persists the pairs of `b` and `c`; when the
iterator yields them the other way round, the loaded index answers `get` of key `b` with a
decode error, where the built index returns the value of the record. -/
theorem C5_counterexample :
    fileTwo.WellFormed ∧ fileTwo.StrictSorted ∧
      (newSparseFileIndex fileTwo none).build = some (builtTwo, none) ∧
      builtTwo.indexFile = some [([98], 100), ([99], 110)] ∧
      [([99], 110), ([98], 100)].Perm [([98], 100), ([99], 110)] ∧
      ((newSparseFileIndex fileTwo (some [([98], 100), ([99], 110)])).load
          builtTwo.manifestEntry [([99], 110), ([98], 100)]).2 = none ∧
      builtTwo.get [98] = .ret (some [49]) none ∧
      ((newSparseFileIndex fileTwo (some [([98], 100), ([99], 110)])).load
          builtTwo.manifestEntry [([99], 110), ([98], 100)]).1.get [98] =
        .ret none (some .decodeFailure) := by
  refine ⟨by decide, by decide, rfl, rfl, List.Perm.swap _ _ _, rfl, ?_, ?_⟩
  · exact @get_build_round_trip fileTwo (by decide) (by decide) none builtTwo rfl
      ⟨[98], [49], 10, false⟩ (by decide) (by decide)
  · exact @get_backs_onto_zero _ [⟨[99], 110⟩, ⟨[98], 100⟩] _ rfl (by decide)
      (by decide) ⟨[99], 110⟩ rfl (by decide) (by decide) (by decide) (by decide)

/-- C5, amended: when the persisted table yields the stored pairs in the order in which
`build` wrote them, a fresh index filled by `load` from the manifest entry of the built index
answers `get` as the built index does, for every record key of a sorted file on which
`build` succeeds; for a non-empty key the answer is the value of a record with that key. -/
theorem C5_persistence_in_written_order (f : SeqFile) (idx : Option (List (Bytes × Nat)))
    (s : sparseFileIndex) (stored : List (Bytes × Nat)) (r : Record)
    (hwf : f.WellFormed) (hs : f.Sorted)
    (hb : (newSparseFileIndex f idx).build = some (s, none))
    (hstored : s.indexFile = some stored) (hr : r ∈ f.records) :
    ((newSparseFileIndex f (some stored)).load s.manifestEntry stored).2 = none ∧
      ((newSparseFileIndex f (some stored)).load s.manifestEntry stored).1.get r.key =
        s.get r.key ∧
      (r.key ≠ [] → ∃ r' ∈ f.records, r'.key = r.key ∧
        s.get r.key = .ret (some r'.value) none) := by
  obtain ⟨real, hbuilt⟩ := build_ok hwf hb
  have hst : stored = real.map fun e => (e.key, e.offset) := by
    have := hbuilt.indexFile
    rw [hstored] at this
    exact Option.some.inj this
  refine ⟨rfl, ?_, ?_⟩
  · have htab : ((newSparseFileIndex f (some stored)).load s.manifestEntry stored).1.table =
        s.table := by
      rw [load_table, hbuilt.table, hst, List.map_map]
      congr 1
      exact List.map_id _
    exact @get_congr ((newSparseFileIndex f (some stored)).load s.manifestEntry stored).1
      s rfl rfl htab hbuilt.source.symm r.key
  · intro hk
    obtain ⟨t0, ht0, hrt0⟩ := exists_recAt_of_mem hr
    have hex : ∃ t, t < f.records.length ∧ (f.recAt t).key = r.key := ⟨t0, ht0, by rw [hrt0]⟩
    classical
    have ht := Nat.find_spec hex
    have hfirst : ∀ u, u < Nat.find hex → (f.recAt u).key ≠ r.key := by
      intro u hu hcon
      exact Nat.find_min hex hu ⟨by omega, hcon⟩
    rcases get_found_of_built hwf hs hbuilt r.key hk (Nat.find hex) ht.1 ht.2 hfirst with
      ⟨j, hj, _, hjk, hget⟩ | ⟨_, hget⟩
    · exact ⟨f.recAt j, recAt_mem hj, hjk, hget⟩
    · exact ⟨f.recAt (Nat.find hex), recAt_mem ht.1, ht.2, hget⟩

/-- C5, amended, on `fileTwo` and its record of key `b`. -/
theorem C5_persistence_in_written_order_witness :
    fileTwo.WellFormed ∧ fileTwo.Sorted ∧
      (newSparseFileIndex fileTwo none).build = some (builtTwo, none) ∧
      builtTwo.indexFile = some [([98], 100), ([99], 110)] ∧
      (⟨[98], [49], 10, false⟩ : Record) ∈ fileTwo.records ∧
      ((newSparseFileIndex fileTwo (some [([98], 100), ([99], 110)])).load
          builtTwo.manifestEntry [([98], 100), ([99], 110)]).1.get [98] = builtTwo.get [98] :=
  ⟨by decide, by decide, rfl, rfl, by decide,
    (C5_persistence_in_written_order fileTwo none builtTwo [([98], 100), ([99], 110)]
      ⟨[98], [49], 10, false⟩ (by decide) (by decide) rfl rfl (by decide)).2.1⟩

/-- C6, counterexample: `fileSkipRun` is sorted and its last two records share the key `c`;
`build` returns no error, after a jump of `skipAndSync` that lands on the second record of
the run. The entry of key `c` has the offset 200020 of the second record, not the offset
100020 of the first, and `get` returns the value `4` of the second record, not the value `3`
of the first. -/
theorem C6_counterexample :
    fileSkipRun.WellFormed ∧ fileSkipRun.Sorted ∧
      fileSkipRun.records =
        [⟨[97], [49], 100000, false⟩, ⟨[98], [50], 10, false⟩] ++
          [⟨[99], [51], 100000, false⟩, ⟨[99], [52], 10, true⟩] ++ [] ∧
      (newSparseFileIndex fileSkipRun none).build = some (builtSkipRun, none) ∧
      (⟨[99], 200020⟩ : sparseIndexEntry) ∈ builtSkipRun.table ∧
      fileSkipRun.offset 2 = 100020 ∧ fileSkipRun.offset 3 = 200020 ∧
      builtSkipRun.get [99] = .ret (some [52]) none := by
  refine ⟨by decide, by decide, rfl, rfl, ?_, by decide, by decide, ?_⟩
  · show (⟨[99], 200020⟩ : sparseIndexEntry) ∈
      zeroTable ++ [⟨[97], 10⟩] ++ [⟨[98], 100010⟩] ++ [⟨[99], 200020⟩]
    exact List.mem_append_right _ (List.mem_singleton_self _)
  · obtain ⟨real, hbuilt⟩ := @build_ok fileSkipRun (by decide) none builtSkipRun rfl
    have hreal : real = [⟨[97], 10⟩, ⟨[98], 100010⟩, ⟨[99], 200020⟩] := by
      have h1 := hbuilt.table
      have h2 : builtSkipRun.table =
          zeroTable ++ [⟨[97], 10⟩, ⟨[98], 100010⟩, ⟨[99], 200020⟩] := by
        simp [builtSkipRun]
      rw [h2] at h1
      exact (List.append_cancel_left h1).symm
    subst hreal
    rcases get_found_of_built (f := fileSkipRun) (by decide) (by decide) hbuilt [99]
        (by decide) 2 (by decide) (by decide) (by decide) with
      ⟨j, hj, hmem, _, hget⟩ | ⟨hno, _⟩
    · have hjlt : j < 4 := hj
      have hj3 : j = 3 := by
        interval_cases j
        · revert hmem; decide
        · revert hmem; decide
        · revert hmem; decide
        · rfl
      rw [hget, hj3]
      rfl
    · exact absurd rfl (hno ⟨[99], 200020⟩ (by simp))

/-- C6, amended: on a sorted file with a run of N >= 2 consecutive records of the same
non-empty key `k`, no record before or after the run having that key, after `build`
succeeds: the table holds at most one entry with key `k`; when `build` reads a record of the
run, the table holds an entry with key `k`; the offset of an entry with key `k` is the offset
of the first record of the run that `build` reads, and `get k` returns the value of that
record; it is the first record of the run when `build` reads that record, which it does when
every record before the run starts at an offset of at most `skipSize`; and when `build` reads
no record of the run, the table holds no entry with key `k` and `get k` returns the value of
the first record of the run. -/
theorem C6_duplicate_run (f : SeqFile) (idx : Option (List (Bytes × Nat)))
    (s : sparseFileIndex) (pre run post : List Record) (k : Bytes)
    (hwf : f.WellFormed) (hs : f.Sorted) (hrec : f.records = pre ++ run ++ post)
    (hrun : 2 ≤ run.length) (hk : ∀ r ∈ run, r.key = k) (hpre : ∀ r ∈ pre, r.key ≠ k)
    (hpost : ∀ r ∈ post, r.key ≠ k) (hne : k ≠ [])
    (hb : (newSparseFileIndex f idx).build = some (s, none)) :
    (s.table.filter (fun e => decide (e.key = k))).length ≤ 1 ∧
      (∀ j, pre.length ≤ j → j < pre.length + run.length →
        f.offset j ∈ (newSparseFileIndex f idx).readOffsets → ∃ e ∈ s.table, e.key = k) ∧
      (∀ e ∈ s.table, e.key = k →
        ∃ j, pre.length ≤ j ∧ j < pre.length + run.length ∧ e.offset = f.offset j ∧
          f.offset j ∈ (newSparseFileIndex f idx).readOffsets ∧
          (∀ j', pre.length ≤ j' → j' < j →
            f.offset j' ∉ (newSparseFileIndex f idx).readOffsets) ∧
          s.get k = .ret (some (f.recAt j).value) none) ∧
      (f.offset pre.length ∈ (newSparseFileIndex f idx).readOffsets →
        (⟨k, f.offset pre.length⟩ : sparseIndexEntry) ∈ s.table ∧
          s.get k = .ret (some (f.recAt pre.length).value) none) ∧
      ((∀ j, j < pre.length → f.offset j ≤ skipSize) →
        f.offset pre.length ∈ (newSparseFileIndex f idx).readOffsets) ∧
      ((∀ j, pre.length ≤ j → j < pre.length + run.length →
          f.offset j ∉ (newSparseFileIndex f idx).readOffsets) →
        (∀ e ∈ s.table, e.key ≠ k) ∧
          s.get k = .ret (some (f.recAt pre.length).value) none) := by
  obtain ⟨real, hbuilt⟩ := build_ok hwf hb
  obtain ⟨ht, htk⟩ := run_key hrec hk (le_refl pre.length) (by omega)
  obtain ⟨hreadsRec, hreadsSorted⟩ := reads_sorted hwf idx
  have hfirst : ∀ u, u < pre.length → (f.recAt u).key ≠ k := by
    intro u hu hcon
    have := (run_range hrec hpre hpost (show u < f.records.length by omega) hcon).1
    omega
  have hzero : ∀ e ∈ zeroTable, e.key ≠ k := by
    intro e he hek
    unfold zeroTable at he
    rw [List.mem_replicate] at he
    exact hne (by rw [← hek, he.2])
  have hget := get_found_of_built hwf hs hbuilt k hne pre.length ht htk hfirst
  -- an entry of key `k` lies behind the zero entries, at a record of the run that was read
  have hentry : ∀ e ∈ s.table, e.key = k →
      e ∈ real ∧ ∃ j, pre.length ≤ j ∧ j < pre.length + run.length ∧
        e = ⟨k, f.offset j⟩ ∧ f.offset j ∈ (newSparseFileIndex f idx).readOffsets := by
    intro e he hek
    have he' := he
    rw [hbuilt.table] at he'
    have hereal := mem_table_of_key he' (by rw [hek]; exact hne)
    obtain ⟨j, hj, hej⟩ := hbuilt.entries e hereal
    have hjk : (f.recAt j).key = k := by rw [← hek, hej]
    obtain ⟨h1, h2⟩ := run_range hrec hpre hpost hj hjk
    refine ⟨hereal, j, h1, h2, by rw [hej, hjk], ?_⟩
    rcases table_entry_read f idx s none hb e he with h | h
    · exact absurd hek (hzero e h)
    · rw [hej] at h; exact h
  -- the first record of the run that was read has an entry
  have hfirstread : ∀ j, pre.length ≤ j → j < pre.length + run.length →
      f.offset j ∈ (newSparseFileIndex f idx).readOffsets →
      ∃ j0, pre.length ≤ j0 ∧ j0 ≤ j ∧
        (⟨k, f.offset j0⟩ : sparseIndexEntry) ∈ s.table ∧
        (∀ j', pre.length ≤ j' → j' < j0 →
          f.offset j' ∉ (newSparseFileIndex f idx).readOffsets) := by
    intro j hj1 hj2 hjr
    obtain ⟨A, o, B, hsplit, ⟨j0, h01, h02, hoj0⟩, hA⟩ := exists_first_split
      (fun o => ∃ j, pre.length ≤ j ∧ j < pre.length + run.length ∧ o = f.offset j)
      (newSparseFileIndex f idx).readOffsets ⟨f.offset j, hjr, j, hj1, hj2, rfl⟩
    obtain ⟨hj0n, hj0k⟩ := run_key hrec hk h01 h02
    have hpw := hreadsSorted
    rw [hsplit, List.pairwise_append] at hpw
    have hAlt : ∀ a ∈ A, a < o := fun a ha => hpw.2.2 a ha o (List.mem_cons_self _ _)
    have hBgt : ∀ b ∈ B, o < b := fun b hb' => (List.pairwise_cons.mp hpw.2.1).1 b hb'
    -- records read before `o` lie before the run
    have hbefore : ∀ a ∈ A, ∃ ja, ja < pre.length ∧ a = f.offset ja := by
      intro a ha
      obtain ⟨ja, hja, haj⟩ := hreadsRec a (by rw [hsplit]; exact List.mem_append_left _ ha)
      refine ⟨ja, ?_, haj⟩
      have hlt := hAlt a ha
      rw [haj, hoj0] at hlt
      have hjaj0 : ja < j0 := by
        by_contra hcon
        have := offset_mono f (show j0 ≤ ja by omega)
        omega
      by_contra hcon
      exact hA a ha ⟨ja, by omega, by omega, haj⟩
    have hmem : (⟨(f.recAt j0).key, o⟩ : sparseIndexEntry) ∈ s.table := by
      refine reads_entry f idx s A B o (f.recAt j0) (f.offset (j0 + 1)) hb hsplit
        (by rw [hoj0]; exact scan_recAt hwf hj0n) ?_
      intro a ha r' nx' hscan
      obtain ⟨ja, hja, haj⟩ := hbefore a ha
      rw [haj, scan_recAt hwf (show ja < f.records.length by omega)] at hscan
      simp only [ScanResult.record.injEq] at hscan
      rw [← hscan.1]
      have hle := sorted_recAt hs (show ja ≤ j0 by omega) hj0n
      have hneq : bytesCompare (f.recAt ja).key (f.recAt j0).key ≠ 0 := by
        intro hcon
        exact hfirst ja hja ((bytesCompare_eq_zero.mp hcon).trans hj0k)
      omega
    rw [hj0k, hoj0] at hmem
    refine ⟨j0, h01, ?_, hmem, ?_⟩
    · -- `j0` is at most `j`
      have hjmem : f.offset j ∈ A ++ o :: B := by rw [← hsplit]; exact hjr
      rcases List.mem_append.mp hjmem with h | h
      · exact absurd ⟨j, hj1, hj2, rfl⟩ (hA _ h)
      · rcases List.mem_cons.mp h with h' | h'
        · rw [hoj0] at h'
          have := offset_inj hwf (run_key hrec hk hj1 hj2).1 hj0n h'
          omega
        · have hlt := hBgt _ h'
          rw [hoj0] at hlt
          by_contra hcon
          have := offset_mono f (show j ≤ j0 by omega)
          omega
    · intro j' hj'1 hj'2 hj'r
      have hj'3 : j' < pre.length + run.length := by omega
      have hj'mem : f.offset j' ∈ A ++ o :: B := by rw [← hsplit]; exact hj'r
      have hlt' := offset_lt hwf hj'2 (run_key hrec hk hj'1 hj'3).1
      rcases List.mem_append.mp hj'mem with h | h
      · exact hA _ h ⟨j', hj'1, hj'3, rfl⟩
      · rcases List.mem_cons.mp h with h' | h'
        · rw [hoj0] at h'
          omega
        · have hlt := hBgt _ h'
          rw [hoj0] at hlt
          omega
  -- what `get` returns when the table has an entry of key `k` at record `j`
  have hgetAt : ∀ j, j < f.records.length → (⟨k, f.offset j⟩ : sparseIndexEntry) ∈ real →
      s.get k = .ret (some (f.recAt j).value) none := by
    intro j hj hmem
    rcases hget with ⟨j1, hj1, hmem1, _, hg⟩ | ⟨hno, _⟩
    · have heq := entry_unique hbuilt.sortedKeys hmem1 hmem rfl
      have hoff : f.offset j1 = f.offset j := congrArg sparseIndexEntry.offset heq
      rw [hg, offset_inj hwf hj1 hj hoff]
    · exact absurd rfl (hno _ hmem)
  have hthird : ∀ e ∈ s.table, e.key = k →
      ∃ j, pre.length ≤ j ∧ j < pre.length + run.length ∧ e.offset = f.offset j ∧
        f.offset j ∈ (newSparseFileIndex f idx).readOffsets ∧
        (∀ j', pre.length ≤ j' → j' < j →
          f.offset j' ∉ (newSparseFileIndex f idx).readOffsets) ∧
        s.get k = .ret (some (f.recAt j).value) none := by
    intro e he hek
    obtain ⟨hereal, j, hj1, hj2, hej, hjr⟩ := hentry e he hek
    obtain ⟨j0, h01, h0j, hmem0, hmin0⟩ := hfirstread j hj1 hj2 hjr
    have hmem0' : (⟨k, f.offset j0⟩ : sparseIndexEntry) ∈ real := by
      rw [hbuilt.table] at hmem0
      exact mem_table_of_key hmem0 hne
    have heq : (⟨k, f.offset j0⟩ : sparseIndexEntry) = e :=
      entry_unique hbuilt.sortedKeys hmem0' hereal (by rw [hek])
    have hoff : f.offset j0 = f.offset j := by
      have := congrArg sparseIndexEntry.offset heq
      rw [hej] at this
      exact this
    have hjj : j0 = j :=
      offset_inj hwf (run_key hrec hk h01 (by omega)).1 (run_key hrec hk hj1 hj2).1 hoff
    subst hjj
    refine ⟨j0, hj1, hj2, by rw [hej], hjr, hmin0, ?_⟩
    exact hgetAt j0 (run_key hrec hk hj1 hj2).1 hmem0'
  have hfourth : f.offset pre.length ∈ (newSparseFileIndex f idx).readOffsets →
      (⟨k, f.offset pre.length⟩ : sparseIndexEntry) ∈ s.table ∧
        s.get k = .ret (some (f.recAt pre.length).value) none := by
    intro hr
    obtain ⟨j0, h01, h0j, hmem0, _⟩ := hfirstread pre.length (le_refl _) (by omega) hr
    have hj0 : j0 = pre.length := by omega
    subst hj0
    refine ⟨hmem0, ?_⟩
    rw [hbuilt.table] at hmem0
    exact hgetAt _ ht (mem_table_of_key hmem0 hne)
  refine ⟨?_, ?_, hthird, hfourth, ?_, ?_⟩
  · rw [hbuilt.table, List.filter_append]
    have hz : zeroTable.filter (fun e => decide (e.key = k)) = [] := by
      rw [List.filter_eq_nil_iff]
      intro e he
      simp only [decide_eq_true_eq]
      exact hzero e he
    rw [hz, List.nil_append]
    exact filter_key_length_le_one hbuilt.sortedKeys
  · intro j hj1 hj2 hjr
    obtain ⟨j0, _, _, hmem0, _⟩ := hfirstread j hj1 hj2 hjr
    exact ⟨_, hmem0, rfl⟩
  · intro hdense
    have hentry0 : (⟨k, f.offset pre.length⟩ : sparseIndexEntry) ∈ real := by
      rcases Nat.eq_zero_or_pos pre.length with h0 | hpos
      · have hhead := hbuilt.head (by omega)
        rw [h0]
        rw [h0] at htk
        rw [htk] at hhead
        exact List.mem_of_mem_head? hhead
      · have hj0 : pre.length - 1 + 1 = pre.length := by omega
        have hle := sorted_recAt hs (show pre.length - 1 ≤ pre.length by omega) ht
        have hneq : bytesCompare (f.recAt (pre.length - 1)).key (f.recAt pre.length).key ≠ 0 := by
          intro hcon
          have := bytesCompare_eq_zero.mp hcon
          exact hfirst (pre.length - 1) (by omega) (this.trans htk)
        have := hbuilt.dense (pre.length - 1) (by omega) (hdense _ (by omega))
          (by rw [hj0]; omega)
        rw [hj0, htk] at this
        exact this
    have hmemT : (⟨k, f.offset pre.length⟩ : sparseIndexEntry) ∈ s.table := by
      rw [hbuilt.table]; exact List.mem_append_right _ hentry0
    rcases table_entry_read f idx s none hb _ hmemT with h | h
    · exact absurd rfl (hzero _ h)
    · exact h
  · intro hnone
    have hno : ∀ e ∈ s.table, e.key ≠ k := by
      intro e he hek
      obtain ⟨_, j, hj1, hj2, _, hjr⟩ := hentry e he hek
      exact hnone j hj1 hj2 hjr
    refine ⟨hno, ?_⟩
    rcases hget with ⟨j1, _, hmem1, _, _⟩ | ⟨_, hg⟩
    · exact absurd rfl (hno _ (by rw [hbuilt.table]; exact List.mem_append_right _ hmem1))
    · exact hg

/-- C6, amended, on `fileSkipDup`, keys `a b b b c`: `build` reads the first `b` and jumps to
the third; the table has the entry of the first `b` and `get` returns its value `2`. -/
theorem C6_duplicate_run_witness :
    fileSkipDup.WellFormed ∧ fileSkipDup.Sorted ∧
      fileSkipDup.records =
        [⟨[97], [49], 100000, false⟩] ++
          [⟨[98], [50], 10, false⟩, ⟨[98], [51], 100000, false⟩, ⟨[98], [52], 10, true⟩] ++
          [⟨[99], [53], 10, false⟩] ∧
      (newSparseFileIndex fileSkipDup none).build = some (builtSkipDup, none) ∧
      (newSparseFileIndex fileSkipDup none).readOffsets = [10, 100010, 200020, 200030] ∧
      ((⟨[98], fileSkipDup.offset 1⟩ : sparseIndexEntry) ∈ builtSkipDup.table ∧
        builtSkipDup.get [98] = .ret (some (fileSkipDup.recAt 1).value) none) :=
  ⟨by decide, by decide, rfl, rfl, by decide,
    (C6_duplicate_run fileSkipDup none builtSkipDup [⟨[97], [49], 100000, false⟩]
      [⟨[98], [50], 10, false⟩, ⟨[98], [51], 100000, false⟩, ⟨[98], [52], 10, true⟩]
      [⟨[99], [53], 10, false⟩] [98] (by decide) (by decide) rfl (by decide) (by decide)
      (by decide) (by decide) (by decide) rfl).2.2.2.1 (by decide)⟩

/-- C7: in every index that `newSparseFileIndex` followed by a successful `build` or `load`
produces, for every key, the index `closest` that `get` computes with the binary search and
the back-up-by-one step satisfies `0 <= closest < len(table)`. -/
theorem C7_closest_in_range (f : SeqFile) (idx : Option (List (Bytes × Nat)))
    (s : sparseFileIndex) (key : Bytes)
    (h : (newSparseFileIndex f idx).build = some (s, none) ∨
      ∃ m iter, (newSparseFileIndex f idx).load m iter = (s, none)) :
    0 ≤ s.closest key ∧ s.closest key < s.table.length := by
  rcases h with h | ⟨m, iter, h⟩
  · obtain ⟨⟨ext, hext⟩, _⟩ := build_table f idx s none h
    exact closest_in_range s ext key hext
  · have htab := load_table f idx m iter
    rw [h] at htab
    exact closest_in_range s _ key htab

/-- C7 on the index built from a file without records, for the empty key. -/
theorem C7_closest_in_range_witness :
    ((newSparseFileIndex fileEmpty none).build = some (builtEmpty, none) ∨
      ∃ m iter, (newSparseFileIndex fileEmpty none).load m iter = (builtEmpty, none)) ∧
      0 ≤ builtEmpty.closest [] ∧ builtEmpty.closest [] < builtEmpty.table.length :=
  ⟨Or.inl rfl, C7_closest_in_range fileEmpty none builtEmpty [] (Or.inl rfl)⟩

/-- C8, at the failing input: on `fileOne`, one record of key `a`, `build` returns no error
and `minKey` is `a`, but the first entry of the table is a zero entry with an empty key, and
the table is not strictly increasing: `newSparseFileIndex` made it with `1024*1024` zero
entries, and `build` appends behind them. -/
theorem C8_table_starts_with_zero_entries :
    fileOne.WellFormed ∧ fileOne.Sorted ∧ fileOne.records ≠ [] ∧
      ∃ s, (newSparseFileIndex fileOne none).build = some (s, none) ∧
        s.minKey = some [97] ∧ s.table.head? = some ⟨[], 0⟩ ∧ ¬ TableStrict s.table := by
  refine ⟨by decide, by decide, by decide, ?_⟩
  obtain ⟨s, real, hb, hbuilt⟩ := build_sorted (f := fileOne) (by decide) (by decide) none
  have hz : zeroTable = ⟨[], 0⟩ :: ⟨[], 0⟩ :: List.replicate (initialTableLen - 2) ⟨[], 0⟩ := by
    unfold zeroTable
    have : initialTableLen = (initialTableLen - 2) + 1 + 1 := by decide
    rw [this, List.replicate_succ, List.replicate_succ]
    rfl
  refine ⟨s, hb, ?_, ?_, ?_⟩
  · rw [hbuilt.minKey (by decide)]; rfl
  · rw [hbuilt.table, hz]; rfl
  · rw [hbuilt.table, hz]
    unfold TableStrict
    intro hcon
    simp only [List.cons_append, List.pairwise_cons] at hcon
    have := (hcon.1 ⟨[], 0⟩ (List.mem_cons_self _ _)).1
    simp [bytesCompare] at this

/-- C9, counterexample: on the file with keys `a c b`, with no file at the index path before
the call, `build` returns `errNotSorted` and a file exists at the index path. -/
theorem C9_counterexample :
    (newSparseFileIndex fileUnsorted none).indexFile = none ∧
      (newSparseFileIndex fileUnsorted none).build =
        some (failedUnsorted, some .errNotSorted) ∧
      failedUnsorted.indexFile = some [([97], 100), ([99], 110)] :=
  ⟨rfl, rfl, rfl⟩

/-- C9, amended: when `build` returns `errNotSorted`, the file that `cdb.Create` made at the
index path exists; no path of `build` removes it, and it is gone after `cleanup`. -/
theorem C9_index_file_left_behind (f : SeqFile) (idx : Option (List (Bytes × Nat)))
    (s : sparseFileIndex)
    (hb : (newSparseFileIndex f idx).build = some (s, some .errNotSorted)) :
    s.indexFile.isSome = true ∧ s.cleanup.indexFile = none :=
  ⟨(build_table f idx s _ hb).2, rfl⟩

/-- C9, amended, on the file with keys `a c b`. -/
theorem C9_index_file_left_behind_witness :
    (newSparseFileIndex fileUnsorted none).build =
        some (failedUnsorted, some .errNotSorted) ∧
      failedUnsorted.indexFile.isSome = true ∧ failedUnsorted.cleanup.indexFile = none :=
  ⟨rfl, C9_index_file_left_behind fileUnsorted none failedUnsorted rfl⟩

/-- C10, counterexample: when the iterator yields the pair of `b` before the pair of `a`,
`load` returns no error and the table is not sorted by key. -/
theorem C10_counterexample :
    ((newSparseFileIndex fileBasic none).load ⟨some [97], some [101]⟩
        [([98], 110), ([97], 100)]).2 = none ∧
      ¬ TableSorted ((newSparseFileIndex fileBasic none).load ⟨some [97], some [101]⟩
        [([98], 110), ([97], 100)]).1.table := by
  refine ⟨rfl, ?_⟩
  rw [load_table]
  unfold TableSorted
  intro hcon
  have := (List.pairwise_append.mp hcon).2.1
  revert this
  decide

/-- C10, amended: `load` returns no error and leaves the table that `newSparseFileIndex`
made followed by the pairs in the order in which the iterator yields them; it does not sort,
and the table is sorted ascending by key exactly when the iterator yields the pairs in
ascending order of key. -/
theorem C10_load_keeps_iteration_order (f : SeqFile) (idx : Option (List (Bytes × Nat)))
    (m : manifestEntry) (iter : List (Bytes × Nat)) :
    ((newSparseFileIndex f idx).load m iter).2 = none ∧
      ((newSparseFileIndex f idx).load m iter).1.table =
        zeroTable ++ iter.map (fun kv => ⟨kv.1, kv.2⟩) ∧
      (TableSorted ((newSparseFileIndex f idx).load m iter).1.table ↔
        iter.Pairwise (fun a b => bytesCompare a.1 b.1 ≤ 0)) := by
  refine ⟨rfl, rfl, ?_⟩
  rw [load_table]
  unfold TableSorted
  rw [List.pairwise_append, List.pairwise_map]
  constructor
  · intro h
    exact h.2.1
  · intro h
    refine ⟨?_, h, ?_⟩
    · unfold zeroTable
      rw [List.pairwise_replicate]
      right
      simp [bytesCompare]
    · intro a ha b _
      unfold zeroTable at ha
      rw [List.mem_replicate] at ha
      rw [ha.2]
      exact bytesCompare_nil_left _

end Sequins
